import Mathlib

/-!
Verification of the CSS value-grammar compiler and matcher of the svg2
repository (package `cssvalue`): the grammar-notation lexer (`lex.go`),
the recursive-descent grammar parser (`ParseGrammar`) and the backtracking
matcher (`Match`).

The embedding is a shallow one.  Runes are `Char`, readers are `List Char`
(resp. `List Token` for the pre-lexed, whitespace-filtered value-token
stream), Go maps are association lists, and the possibly non-terminating
recursions of the source (the matcher can loop on nullable operands, the
parser is recursive descent) take an explicit fuel argument; running out of
fuel yields `none` (matcher) or a distinguished error (parser), which no
theorem counts as an observable outcome of the source.
-/

namespace Svg2Css

/-! ## Value tokens

`css.TokenType` and the matcher-facing `Token` struct.  The external value
tokenizer is out of scope; the matcher receives the stream of its
non-whitespace tokens as a list, and `TokType.error` is the end/error marker
that `css.Lexer.Next` keeps returning once the stream is exhausted. -/

inductive TokType where
  | ident | number | percentage | dimension | string | url | hash | function
  | comma | colon | leftBrace | leftBracket | leftParen
  | rightBrace | rightBracket | rightParen | semicolon | delim | whitespace | error
deriving DecidableEq, Repr

structure Token where
  type : TokType
  value : String
deriving DecidableEq, Repr

structure Capture where
  name : String
  values : List Token
deriving DecidableEq, Repr

/-! ## The term model (`types.go`) -/

/-- The numeric bounds of a bracketed range are `float64` in the source; the
grammar notation produces finite decimals and the fixed ratio term uses 0 and
+∞, and the matcher never inspects a bound, so rationals extended with +∞ are
a faithful carrier. -/
inductive FVal where
  | fin (q : ℚ)
  | inf
deriving DecidableEq, Repr

structure NumRange where
  min : FVal
  max : FVal
deriving DecidableEq, Repr

structure BType where
  name : String
  range : Option NumRange
deriving DecidableEq, Repr

/-- `Term`, the closed variant of grammar terms.  `repeatTerm` is the source's
`Repeat` (`repeat` is a Lean keyword). -/
inductive Term where
  | keyword (s : String)
  | basicType (b : BType)
  | propertyType (s : String)
  | nonTerminal (s : String)
  | literal (s : String)
  | seq (name : String) (operands : List Term)
  | allOf (operands : List Term)
  | anyOf (operands : List Term)
  | oneOf (operands : List Term)
  | group (name : String) (required : Bool) (operand : Term)
  | zeroOrMore (operand : Term)
  | oneOrMore (operand : Term)
  | zeroOrOne (operand : Term)
  | repeatTerm (min max : Int) (commas : Bool) (operand : Term)

/-- The source's `Function` struct: parameter terms and a return basic type. -/
structure Function where
  params : List Term
  type : BType

/-- The source's `Context`: three name-indexed mappings, modelled as
association lists looked up with `List.lookup`. -/
structure Context where
  properties : List (String × Term)
  nonTerminals : List (String × Term)
  functions : List (String × Function)

/-! ## Matcher state (`match.go`)

The Go matcher buffers value tokens lazily from the css lexer; logically the
buffer is the full stream of non-whitespace tokens and `offset` the cursor.
`peek` past the end of the buffer yields the error token. -/

def errTok : Token := ⟨.error, ""⟩

structure MState where
  buffer : List Token
  offset : Nat
  result : List Token
  captures : List Capture
deriving DecidableEq, Repr

def mPeek (s : MState) : Token :=
  s.buffer.getD s.offset errTok

def mChomp (s : MState) : MState :=
  { s with result := s.result ++ [s.buffer.getD s.offset errTok], offset := s.offset + 1 }

/-- `matcher.matchKeyword`. -/
def mMatchKeyword (k : String) (s : MState) : Bool × MState :=
  let next := mPeek s
  if next.type = TokType.ident ∧ next.value = k then (true, mChomp s) else (false, s)

/-- The token kind `matcher.matchLiteral` expects for a literal: a concrete
punctuation kind for the eight special characters, any delimiter otherwise. -/
def litExpect (t : String) : TokType :=
  if t = ":" then .colon
  else if t = "\x7b" then .leftBrace
  else if t = "[" then .leftBracket
  else if t = "(" then .leftParen
  else if t = "\x7d" then .rightBrace
  else if t = "]" then .rightBracket
  else if t = ")" then .rightParen
  else if t = ";" then .semicolon
  else .delim

/-- `matcher.matchLiteral`: require an exact type and text match against the
expected token kind. -/
def mMatchLiteral (t : String) (s : MState) : Bool × MState :=
  if (mPeek s).type = litExpect t ∧ (mPeek s).value = t then (true, mChomp s) else (false, s)

/-- The fixed sub-grammar used for the `ratio` basic type:
a non-negative number, optionally followed by a slash and another
non-negative number. -/
def ratioTerm : Term :=
  .seq "" [
    .basicType ⟨"number", some ⟨.fin 0, .inf⟩⟩,
    .zeroOrOne (.group "" false (.seq "" [
      .literal "/",
      .basicType ⟨"number", some ⟨.fin 0, .inf⟩⟩]))]

/-- The snapshot/rollback wrapper of `matcher.match`: given the entry state
`s` and the per-kind result, restore offset, result length and capture count
on failure (`m.offset, m.result, m.captures = so, m.result[:sr],
m.captures[:sc]`). -/
def mWrap (s : MState) (r : Option (Bool × MState)) : Option (Bool × MState) :=
  match r with
  | none => none
  | some (b, s1) =>
    if b then some (true, s1)
    else some (false, ⟨s1.buffer, s.offset, s1.result.take s.result.length,
      s1.captures.take s.captures.length⟩)

/-- The shared primitive shape of `matcher.matchBasicType`: require one
concrete token kind and consume it. -/
def mPrim (tt : TokType) (s : MState) : Bool × MState :=
  if (mPeek s).type = tt then (true, mChomp s) else (false, s)

/-- The `color` primitive: a hash or an identifier token. -/
def mPrimColor (s : MState) : Bool × MState :=
  if (mPeek s).type = TokType.hash ∨ (mPeek s).type = TokType.ident then (true, mChomp s)
  else (false, s)

mutual

/-- `matcher.match`: snapshot offset, result length and capture count, run the
per-kind matcher, and restore the snapshot verbatim on failure. -/
def mMatch : Nat → Context → Term → MState → Option (Bool × MState)
  | 0, _, _, _ => none
  | f+1, ctx, t, s =>
    mWrap s
      (match t with
       | .keyword k => some (mMatchKeyword k s)
       | .basicType b => mMatchBasicType f ctx b.name s
       | .propertyType n => mMatchPropertyType f ctx n s
       | .nonTerminal n => mMatchNonTerminal f ctx n s
       | .literal v => some (mMatchLiteral v s)
       | .seq name ops => mMatchSeq f ctx name ops s
       | .allOf ops => mMatchAllOfLoop f ctx ops s
       | .anyOf ops => mMatchAnyOf f ctx ops s
       | .oneOf ops => mMatchOneOf f ctx ops s
       | .group name _ op => mMatchGroup f ctx name op s
       | .zeroOrMore op => mZomLoop f ctx op s
       | .oneOrMore op => mMatchOneOrMore f ctx op s
       | .zeroOrOne op => mMatchZeroOrOne f ctx op s
       | .repeatTerm mn mx commas op => mMatchRepeat f ctx mn mx commas op 0 s)

/-- `matcher.matchBasicType`.  A function-start token dispatches to function
application; otherwise each name requires one concrete token kind, and
`ratio` recurses into the fixed sub-grammar.  An unknown name panics in the
source; the model returns `none`. -/
def mMatchBasicType : Nat → Context → String → MState → Option (Bool × MState)
  | 0, _, _, _ => none
  | f+1, ctx, name, s =>
    if (mPeek s).type = TokType.function then
      match mMatchFunction f ctx s with
      | none => none
      | some (none, s1) => some (false, s1)
      | some (some fn, s1) => some (fn.type.name == name, s1)
    else if name = "custom-ident" ∨ name = "dashed-ident" then some (mPrim .ident s)
    else if name = "string" then some (mPrim .string s)
    else if name = "url" then some (mPrim .url s)
    else if name = "color" then some (mPrimColor s)
    else if name = "integer" ∨ name = "number" then some (mPrim .number s)
    else if name = "percentage" then some (mPrim .percentage s)
    else if name = "dimension" ∨ name = "length" ∨ name = "angle" ∨ name = "time"
        ∨ name = "frequency" ∨ name = "resolution" then some (mPrim .dimension s)
    else if name = "ratio" then
      mMatch f ctx ratioTerm s
    else
      none

/-- `matcher.matchFunction`: look the function up by the token text with the
trailing parenthesis stripped, consume the function token, match every
parameter in order (permissively consuming a separating comma), and require a
closing parenthesis.  On failure only the offset is rewound (to the position
before the function token); accumulated result tokens and captures are left
for the caller's rollback. -/
def mMatchFunction : Nat → Context → MState → Option (Option Function × MState)
  | 0, _, _ => none
  | f+1, ctx, s =>
    let s0 := s.offset
    let token := mPeek s
    match List.lookup (token.value.dropRight 1) ctx.functions with
    | none => some (none, s)
    | some fn =>
      match mMatchParams f ctx fn.params (mChomp s) with
      | none => none
      | some (false, s1) => some (none, { s1 with offset := s0 })
      | some (true, s1) =>
        if (mPeek s1).type = TokType.rightParen then some (some fn, mChomp s1)
        else some (none, { s1 with offset := s0 })

/-- The parameter loop of `matcher.matchFunction`: a comma is consumed after a
parameter only when further parameters remain and the next token is a comma. -/
def mMatchParams : Nat → Context → List Term → MState → Option (Bool × MState)
  | 0, _, _, _ => none
  | _+1, _, [], s => some (true, s)
  | f+1, ctx, p :: rest, s =>
    match mMatch f ctx p s with
    | none => none
    | some (false, s1) => some (false, s1)
    | some (true, s1) =>
      let s2 := if ¬ rest.isEmpty ∧ (mPeek s1).type = TokType.comma then mChomp s1 else s1
      mMatchParams f ctx rest s2

/-- `matcher.matchPropertyType`.  The source appends the capture after a
successful recursive match but then falls through to `return false`; the
model reproduces that fall-through verbatim. -/
def mMatchPropertyType : Nat → Context → String → MState → Option (Bool × MState)
  | 0, _, _, _ => none
  | f+1, ctx, n, s =>
    match List.lookup n ctx.properties with
    | none => some (false, s)
    | some term =>
      let c := s.result.length
      match mMatch f ctx term s with
      | none => none
      | some (false, s1) => some (false, s1)
      | some (true, s1) =>
        some (false, { s1 with captures := s1.captures ++ [⟨n, s1.result.drop c⟩] })

/-- `matcher.matchNonTerminal`: resolve in `Context.NonTerminals`, match
recursively, and on success append one capture named after the reference. -/
def mMatchNonTerminal : Nat → Context → String → MState → Option (Bool × MState)
  | 0, _, _, _ => none
  | f+1, ctx, n, s =>
    match List.lookup n ctx.nonTerminals with
    | none => some (false, s)
    | some term =>
      let c := s.result.length
      match mMatch f ctx term s with
      | none => none
      | some (false, s1) => some (false, s1)
      | some (true, s1) =>
        some (true, { s1 with captures := s1.captures ++ [⟨n, s1.result.drop c⟩] })

/-- `matcher.matchSeq`: match the operands in order; a named sequence appends
one capture spanning the consumed range. -/
def mMatchSeq : Nat → Context → String → List Term → MState → Option (Bool × MState)
  | 0, _, _, _, _ => none
  | f+1, ctx, name, ops, s =>
    let c := s.result.length
    match mMatchSeqOps f ctx ops s with
    | none => none
    | some (false, s1) => some (false, s1)
    | some (true, s1) =>
      if name ≠ "" then
        some (true, { s1 with captures := s1.captures ++ [⟨name, s1.result.drop c⟩] })
      else some (true, s1)

def mMatchSeqOps : Nat → Context → List Term → MState → Option (Bool × MState)
  | 0, _, _, _ => none
  | _+1, _, [], s => some (true, s)
  | f+1, ctx, t :: rest, s =>
    match mMatch f ctx t s with
    | none => none
    | some (false, s1) => some (false, s1)
    | some (true, s1) => mMatchSeqOps f ctx rest s1

/-- The outer loop of `matcher.matchAllOf` on the pending operand list: fail
on stream exhaustion or when a scan matches nothing, finish when no operand
is pending. -/
def mMatchAllOfLoop : Nat → Context → List Term → MState → Option (Bool × MState)
  | 0, _, _, _ => none
  | f+1, ctx, pending, s =>
    if pending.isEmpty then some (true, s)
    else if (mPeek s).type = TokType.error then some (false, s)
    else
      match mAllOfScan f ctx pending s with
      | none => none
      | some (none, s1) => some (false, s1)
      | some (some pending1, s1) => mMatchAllOfLoop f ctx pending1 s1

/-- One scan of `matcher.matchAllOf`: try the pending operands in original
order and remove the first that matches. -/
def mAllOfScan : Nat → Context → List Term → MState → Option (Option (List Term) × MState)
  | 0, _, _, _ => none
  | _+1, _, [], s => some (none, s)
  | f+1, ctx, t :: rest, s =>
    match mMatch f ctx t s with
    | none => none
    | some (true, s1) => some (some rest, s1)
    | some (false, s1) =>
      match mAllOfScan f ctx rest s1 with
      | none => none
      | some (none, s2) => some (none, s2)
      | some (some rest1, s2) => some (some (t :: rest1), s2)

/-- `matcher.matchAnyOf`: one round of `matchOneOf` must succeed, then rounds
repeat until one fails. -/
def mMatchAnyOf : Nat → Context → List Term → MState → Option (Bool × MState)
  | 0, _, _, _ => none
  | f+1, ctx, ops, s =>
    match mMatchOneOf f ctx ops s with
    | none => none
    | some (false, s1) => some (false, s1)
    | some (true, s1) => mAnyOfLoop f ctx ops s1

def mAnyOfLoop : Nat → Context → List Term → MState → Option (Bool × MState)
  | 0, _, _, _ => none
  | f+1, ctx, ops, s =>
    match mMatchOneOf f ctx ops s with
    | none => none
    | some (false, s1) => some (true, s1)
    | some (true, s1) => mAnyOfLoop f ctx ops s1

/-- `matcher.matchOneOf`: ordered alternation, first success wins. -/
def mMatchOneOf : Nat → Context → List Term → MState → Option (Bool × MState)
  | 0, _, _, _ => none
  | _+1, _, [], s => some (false, s)
  | f+1, ctx, t :: rest, s =>
    match mMatch f ctx t s with
    | none => none
    | some (true, s1) => some (true, s1)
    | some (false, s1) => mMatchOneOf f ctx rest s1

/-- `matcher.matchGroup`: match the operand; a named group appends one
capture spanning the consumed range. -/
def mMatchGroup : Nat → Context → String → Term → MState → Option (Bool × MState)
  | 0, _, _, _, _ => none
  | f+1, ctx, name, op, s =>
    let c := s.result.length
    match mMatch f ctx op s with
    | none => none
    | some (false, s1) => some (false, s1)
    | some (true, s1) =>
      if name ≠ "" then
        some (true, { s1 with captures := s1.captures ++ [⟨name, s1.result.drop c⟩] })
      else some (true, s1)

/-- The loop shared by `matchZeroOrMore` and the tail of `matchOneOrMore`:
greedily repeat the operand until it fails, then succeed. -/
def mZomLoop : Nat → Context → Term → MState → Option (Bool × MState)
  | 0, _, _, _ => none
  | f+1, ctx, op, s =>
    match mMatch f ctx op s with
    | none => none
    | some (false, s1) => some (true, s1)
    | some (true, s1) => mZomLoop f ctx op s1

def mMatchOneOrMore : Nat → Context → Term → MState → Option (Bool × MState)
  | 0, _, _, _ => none
  | f+1, ctx, op, s =>
    match mMatch f ctx op s with
    | none => none
    | some (false, s1) => some (false, s1)
    | some (true, s1) => mZomLoop f ctx op s1

def mMatchZeroOrOne : Nat → Context → Term → MState → Option (Bool × MState)
  | 0, _, _, _ => none
  | f+1, ctx, op, s =>
    match mMatch f ctx op s with
    | none => none
    | some (_, s1) => some (true, s1)

/-- `matcher.matchRepeat` with the completed-repetition counter `n`: attempt
up to `max` repetitions, requiring and consuming a comma before every
repetition after the first when `commas` is set (a missing comma fails the
whole term); stop early on stream exhaustion or an operand failure; succeed
exactly when `min ≤ n`. -/
def mMatchRepeat : Nat → Context → Int → Int → Bool → Term → Int → MState → Option (Bool × MState)
  | 0, _, _, _, _, _, _, _ => none
  | f+1, ctx, mn, mx, commas, op, n, s =>
    if n < mx then
      let next := mPeek s
      if next.type = TokType.error then some (decide (mn ≤ n), s)
      else if 0 < n ∧ commas ∧ next.type ≠ TokType.comma then some (false, s)
      else
        let s1 := if 0 < n ∧ commas then mChomp s else s
        match mMatch f ctx op s1 with
        | none => none
        | some (false, s2) => some (decide (mn ≤ n), s2)
        | some (true, s2) => mMatchRepeat f ctx mn mx commas op (n+1) s2
    else some (decide (mn ≤ n), s)

end

/-- `Match`: run the matcher from a fresh state over the given (non-whitespace)
value tokens; `some []` is the source's nil result ("no match"), a successful
match appends the final anonymous capture spanning the whole consumed input. -/
def Match (fuel : Nat) (ctx : Context) (t : Term) (toks : List Token) : Option (List Capture) :=
  match mMatch fuel ctx t ⟨toks, 0, [], []⟩ with
  | none => none
  | some (false, _) => some []
  | some (true, s) => some (s.captures ++ [⟨"", s.result⟩])

/-! ## The grammar-notation lexer (`lex.go`)

The source lexer reads runes from an `io.Reader` through a one-rune buffer
(`buf`/`nb`) plus a sticky error slot (`err`, set by `peek` on end of input).
The model keeps the unread input as a `List Char`, the buffered rune as an
`Option Char` (the source stores rune 0 with `err = io.EOF` when the reader
is exhausted; `'\x00'` plays that role here) and `err : Bool` for the sticky
end-of-input flag.  Invalid UTF-8 (`utf8.RuneError`) cannot arise from a
`List Char`, and a NUL character in the input is modelled faithfully: it is
rune 0 with a nil read error. -/

inductive GTok where
  | char (c : Char)
  | ident
  | number
  | literal
  | anyOf
  | allOf
deriving DecidableEq, Repr

inductive LexErr where
  | eof
  | invalidNumber
deriving DecidableEq, Repr

structure NLexer where
  rest : List Char
  buf : Option Char
  err : Bool
deriving DecidableEq, Repr

/-- `lexer.peek`: return the buffered rune, filling the buffer from the
reader first if necessary; on end of input the buffer holds rune 0 and the
sticky error flag is set. -/
def nlPeek (s : NLexer) : Char × NLexer :=
  match s.buf with
  | some c => (c, s)
  | none =>
    match s.rest with
    | [] => ('\x00', ⟨[], some '\x00', true⟩)
    | c :: rest => (c, ⟨rest, some c, s.err⟩)

/-- `lexer.chomp`: consume the buffered rune (call sites guarantee one is
buffered; the source panics otherwise). -/
def nlChomp (s : NLexer) : Char × NLexer :=
  (s.buf.getD '\x00', { s with buf := none })

def startsIdent (c : Char) : Bool :=
  c = '-' || c = '_' || ('a' ≤ c && c ≤ 'z') || ('A' ≤ c && c ≤ 'Z')

def isDigit (c : Char) : Bool :=
  '0' ≤ c && c ≤ '9'

/-- A `while p (peek) do chomp` loop starting with an empty buffer: returns
the consumed runes and the final lexer state (whose buffer holds the first
rune that failed `p`, or the end-of-input marker). -/
def takeWhileL (p : Char → Bool) (err : Bool) : List Char → List Char × NLexer
  | [] => ([], ⟨[], some '\x00', true⟩)
  | c :: rest =>
    if p c then
      let (v, s) := takeWhileL p err rest
      (c :: v, s)
    else ([], ⟨rest, some c, err⟩)

/-- The same loop from an arbitrary lexer state (the buffered rune, if any,
is tested first). -/
def takeWhileBuf (p : Char → Bool) (s : NLexer) : List Char × NLexer :=
  match s.buf with
  | some c =>
    if p c then
      let (v, s1) := takeWhileL p s.err s.rest
      (c :: v, s1)
    else ([], s)
  | none => takeWhileL p s.err s.rest

/-- A lexing step returns the token, the accumulated `value` text, the final
lexer state and the returned Go error (`none` is nil). -/
abbrev LexRes := GTok × String × NLexer × Option LexErr

/-- `lexer.lexIdent`: optional first rune, then runes while `startsIdent`. -/
def lexIdent (first : Option Char) (s : NLexer) : LexRes :=
  let pre : List Char := match first with | some c => [c] | none => []
  let (v, s1) := takeWhileBuf startsIdent s
  (.ident, String.mk (pre ++ v), s1, none)

/-- The exponent tail of `lexer.lexNumber`, entered with the `e`/`E` marker
peeked but not yet consumed: an optional sign, then mandatory digits
("invalid number token" otherwise). -/
def lexNumberExp (acc : List Char) (e : Char) (s0 : NLexer) : LexRes :=
  let s1 := (nlChomp s0).2
  let (c1, s2) := nlPeek s1
  let (sgn, c2, s3) :=
    if c1 = '-' ∨ c1 = '+' then
      let s4 := (nlChomp s2).2
      let (c5, s5) := nlPeek s4
      (([c1] : List Char), c5, s5)
    else (([] : List Char), c1, s2)
  if ¬ isDigit c2 then
    (.char '\x00', String.mk (acc ++ [e] ++ sgn), s3, some .invalidNumber)
  else
    let (d3, s6) := takeWhileBuf isDigit s3
    (.number, String.mk (acc ++ [e] ++ sgn ++ d3), s6, none)

/-- `lexer.lexNumber`: the infinity glyph alone, or digits with an optional
fraction and an optional exponent. -/
def lexNumber (first : Option Char) (s : NLexer) : LexRes :=
  let pre : List Char := match first with | some c => [c] | none => []
  let (c, s) := nlPeek s
  if c = '∞' then
    (.number, String.mk (pre ++ [c]), (nlChomp s).2, none)
  else
    let (d1, sa) := takeWhileBuf isDigit s
    let (cb, sb) := nlPeek sa
    let (frac, cc, sc) :=
      if cb = '.' then
        let (d2, sd) := takeWhileBuf isDigit (nlChomp sb).2
        let (ce, se) := nlPeek sd
        ('.' :: d2, ce, se)
      else (([] : List Char), cb, sb)
    if cc ≠ 'e' ∧ cc ≠ 'E' then (.number, String.mk (pre ++ d1 ++ frac), sc, none)
    else lexNumberExp (pre ++ d1 ++ frac) cc sc

/-- `lexer.lexLiteral`: a double-quoted run with the quotes stripped.  On an
unterminated literal the source loop never terminates (it keeps copying the
rune-0 end marker); the model stops at end of input, a case no terminating
run of the source reaches. -/
def lexLiteral (s : NLexer) : LexRes :=
  let s := (nlChomp s).2
  let (v, s) := takeWhileBuf (fun c => c != '"' && c != '\x00') s
  let s := (nlChomp s).2
  (.literal, String.mk v, s, none)

/-- `lexer.lexIdentOrNumberOrToken`, reached with the triggering `-` still
buffered (the dispatch in `lexNext` peeks without chomping).  The source
calls `readRune`, which reads past the buffer, so `first` is the rune after
the `-` while the subsequent `peek` still returns the buffered `-`; the model
reproduces this behaviour of the source verbatim. -/
def lexIdentOrNumberOrToken (s : NLexer) : LexRes :=
  match s.rest with
  | [] => (.char '\x00', "", s, some .eof)
  | first :: rest =>
    let s1 : NLexer := { rest := rest, buf := s.buf, err := s.err }
    let (next, s2) := nlPeek s1
    if ('0' ≤ next ∧ next ≤ '9') ∨ next = '∞' then lexNumber (some first) s2
    else if startsIdent next then lexIdent (some first) s2
    else (.char first, "", s2, none)

/-- `lexer.lexNumberOrPlus`: chomp the `+`; a following digit or infinity
glyph starts a number, otherwise `+` is a single-character token. -/
def lexNumberOrPlus (s : NLexer) : LexRes :=
  let (first, s) := nlChomp s
  let (next, s) := nlPeek s
  if ('0' ≤ next ∧ next ≤ '9') ∨ next = '∞' then lexNumber (some first) s
  else (.char first, "", s, none)

/-- `lexer.lexOneOrAnyOf`: `||` is the any-of token, a single `|` a
single-character token. -/
def lexOneOrAnyOf (s : NLexer) : LexRes :=
  let s := (nlChomp s).2
  let (next, s) := nlPeek s
  if next = '|' then (.anyOf, "", (nlChomp s).2, none)
  else (.char '|', "", s, none)

/-- `lexer.lexAllOfOrRune`: `&&` is the all-of token, a single `&` a
single-character token. -/
def lexAllOfOrRune (s : NLexer) : LexRes :=
  let s := (nlChomp s).2
  let (next, s) := nlPeek s
  if next = '&' then (.allOf, "", (nlChomp s).2, none)
  else (.char '&', "", s, none)

/-- Whether the dispatch loop of `lexer.lexNext` silently skips the rune:
`utf8.RuneError` or whitespace (none of the specially dispatched runes is
either, so testing this first is equivalent to the source's switch). -/
def lexSkips (c : Char) : Bool :=
  c = '�' || c.isWhitespace

/-- One non-skipping dispatch of `lexer.lexNext`, with the rune `c` buffered
(state `⟨rest, some c, err⟩`): rune 0 ends lexing (returning the sticky read
error) and every other rune starts a token. -/
def lexDispatch (c : Char) (rest : List Char) (err : Bool) : LexRes :=
  if c = '\x00' then
    (.char '\x00', "", ⟨rest, some c, err⟩, if err then some .eof else none)
  else if c = '-' then lexIdentOrNumberOrToken ⟨rest, some c, err⟩
  else if c = '+' then lexNumberOrPlus ⟨rest, some c, err⟩
  else if c = '|' then lexOneOrAnyOf ⟨rest, some c, err⟩
  else if c = '&' then lexAllOfOrRune ⟨rest, some c, err⟩
  else if ['<', '>', '[', ']', '\x7b', '\x7d', '\'', ',', '*', '?', '#', '!'].contains c then
    (.char c, "", ⟨rest, none, err⟩, none)
  else if startsIdent c then lexIdent none ⟨rest, some c, err⟩
  else if c = '∞' ∨ isDigit c then lexNumber none ⟨rest, some c, err⟩
  else if c = '"' then lexLiteral ⟨rest, some c, err⟩
  else (.literal, String.singleton c, ⟨rest, none, err⟩, none)

/-- The loop of `lexer.lexNext`: skip whitespace and replacement runes, then
dispatch on the first remaining rune. -/
def lexNextW : Char → List Char → Bool → LexRes
  | c, [], err =>
    if lexSkips c then (.char '\x00', "", ⟨[], some '\x00', true⟩, some .eof)
    else lexDispatch c [] err
  | c, c2 :: rest2, err =>
    if lexSkips c then lexNextW c2 rest2 err
    else lexDispatch c (c2 :: rest2) err

/-- `lexer.lexNext`. -/
def lexNext (s : NLexer) : LexRes :=
  match s.buf with
  | some c => lexNextW c s.rest s.err
  | none =>
    match s.rest with
    | [] => (.char '\x00', "", ⟨[], some '\x00', true⟩, some .eof)
    | c :: rest => lexNextW c rest s.err

/-! ## The grammar parser (`parse.go`) -/

/-- Parser state: the lexer plus its current-token slot and value text
(`lexer.token` / `lexer.value`). -/
structure PState where
  lx : NLexer
  token : GTok
  value : String
deriving DecidableEq, Repr

/-- `lexer.lex`: advance to the next token, storing it, and return the error. -/
def plex (s : PState) : Option LexErr × PState :=
  match lexNext s.lx with
  | (t, v, lx, e) => (e, ⟨lx, t, v⟩)

inductive PErr where
  | lexEof
  | invalidNumber
  | expectedEofErr
  | expectedIdent
  | expectedNumber
  | expectedGroup
  | expectedRBrace
  | expectedRBracket
  | expectedGT
  | expectedCommaTok
  | expectedQuote
  | expectedOperand
  | expectedIdentOrQuote
  | intErr
  | floatErr
  | fuelOut
deriving DecidableEq, Repr

def lexErrToPErr : LexErr → PErr
  | .eof => .lexEof
  | .invalidNumber => .invalidNumber

/-- A `if err := l.lex(); err != nil` site. -/
def plexStrict (s : PState) : Except PErr PState :=
  match plex s with
  | (some e, _) => .error (lexErrToPErr e)
  | (none, s1) => .ok s1

/-- A `if err := l.lex(); err != nil && err != io.EOF` site: end of input is
tolerated (the token slot then holds rune 0). -/
def plexTol (s : PState) : Except PErr PState :=
  match plex s with
  | (some .invalidNumber, _) => .error .invalidNumber
  | (some .eof, s1) => .ok s1
  | (none, s1) => .ok s1

def digitsToNat (ds : List Char) : Nat :=
  ds.foldl (fun a c => a * 10 + (c.toNat - '0'.toNat)) 0

/-- The interface of Go `strconv.ParseInt(s, 10, 0)` at its call site in
`parseMultiplier`: an optional sign followed by one or more decimal digits
within the signed 64-bit range; anything else (the infinity glyph, fractions,
exponents) is an error. -/
def parseInt? (str : String) : Option Int :=
  let cs := str.toList
  let (sgn, ds) : Int × List Char :=
    match cs with
    | '-' :: rest => (-1, rest)
    | '+' :: rest => (1, rest)
    | _ => (1, cs)
  if ds.isEmpty || !ds.all isDigit then none
  else
    let v : Int := sgn * (digitsToNat ds : Int)
    if v < -9223372036854775808 ∨ 9223372036854775807 < v then none else some v

/-- The interface of Go `strconv.ParseFloat(s, 64)` at its call site in
`parseRange`, restricted to the texts the notation lexer can produce: an
optional sign, then a mantissa containing at least one digit with an optional
fraction and exponent; the infinity glyph is rejected.  The exact rational
value never feeds back into parsing or matching. -/
def parseFloat? (str : String) : Option ℚ :=
  let cs := str.toList
  let (sgn, cs) : ℚ × List Char :=
    match cs with
    | '-' :: rest => (-1, rest)
    | '+' :: rest => (1, rest)
    | _ => (1, cs)
  let intPart := cs.takeWhile isDigit
  let cs := cs.dropWhile isDigit
  let (fracPart, cs) : List Char × List Char :=
    match cs with
    | '.' :: rest => (rest.takeWhile isDigit, rest.dropWhile isDigit)
    | _ => ([], cs)
  if intPart.isEmpty && fracPart.isEmpty then none
  else
    let mant : ℚ := sgn * ((digitsToNat intPart : ℚ) +
      (digitsToNat fracPart : ℚ) / ((10 : ℚ) ^ fracPart.length))
    match cs with
    | [] => some mant
    | e :: rest =>
      if e = 'e' ∨ e = 'E' then
        let (esgn, rest) : Bool × List Char :=
          match rest with
          | '-' :: r => (true, r)
          | '+' :: r => (false, r)
          | _ => (false, rest)
        if rest.isEmpty || !rest.all isDigit then none
        else
          let ex := digitsToNat rest
          some (if esgn then mant / (10:ℚ)^ex else mant * (10:ℚ)^ex)
      else none

/-- Go `string([]rune{r})`: the special token constants lie above
`unicode.MaxRune`, so converting them yields the replacement character. -/
def runeString (t : GTok) : String :=
  match t with
  | .char c => String.singleton c
  | _ => "�"

def maxInt64 : Int := 9223372036854775807

/-- `parseRange`: `[ number , number ]` with strict lexing throughout. -/
def parseRange (s : PState) : Except PErr (NumRange × PState) := do
  let s ← plexStrict s
  if s.token ≠ GTok.number then .error .expectedNumber else
  match parseFloat? s.value with
  | none => .error .floatErr
  | some mn => do
    let s ← plexStrict s
    if s.token ≠ GTok.char ',' then .error .expectedCommaTok else do
    let s ← plexStrict s
    if s.token ≠ GTok.number then .error .expectedNumber else
    match parseFloat? s.value with
    | none => .error .floatErr
    | some mx => do
      let s ← plexStrict s
      if s.token ≠ GTok.char ']' then .error .expectedRBracket else do
      let s ← plexStrict s
      .ok (⟨.fin mn, .fin mx⟩, s)

def basicTypeNoRange : List String :=
  ["custom-ident", "dashed-ident", "string", "url", "color"]

def basicTypeWithRange : List String :=
  ["integer", "number", "dimension", "percentage", "ratio",
   "length", "angle", "time", "frequency", "resolution"]

/-- `parseType`: `<ident>`, `<ident [min,max]>` or `<'ident'>`; the name is
classified at parse time into the fixed basic-type table versus a generic
non-terminal, and the quoted form yields a property type. -/
def parseType (s : PState) : Except PErr (Term × PState) := do
  let s ← plexStrict s
  match s.token with
  | .ident => do
    let name := s.value
    let s ← plexStrict s
    let isBasicType := basicTypeNoRange.contains name || basicTypeWithRange.contains name
    let allowsRange := basicTypeWithRange.contains name
    let (r, s) ←
      if allowsRange ∧ s.token = GTok.char '[' then do
        let (rng, s1) ← parseRange s
        pure (some rng, s1)
      else pure ((none : Option NumRange), s)
    if s.token ≠ GTok.char '>' then .error .expectedGT else do
    let s ← plexTol s
    if isBasicType then .ok ((.basicType ⟨name, r⟩ : Term), s)
    else .ok ((.nonTerminal name : Term), s)
  | .char '\'' => do
    let s ← plexStrict s
    if s.token ≠ GTok.ident then .error .expectedIdent else do
    let name := s.value
    let s ← plexStrict s
    if s.token ≠ GTok.char '\'' then .error .expectedQuote else do
    let s ← plexStrict s
    if s.token ≠ GTok.char '>' then .error .expectedGT else do
    let s ← plexTol s
    .ok ((.propertyType name : Term), s)
  | _ => .error .expectedIdentOrQuote

/-- The shared `{min[,max]}` tail of `parseMultiplier`, entered with the
current token `{`; `commas` records whether a `#` preceded it. -/
def parseRepeatTail (op : Term) (commas : Bool) (s : PState) :
    Except PErr (Option Term × PState) := do
  let s ← plexStrict s
  if s.token ≠ GTok.number then .error .expectedNumber else
  match parseInt? s.value with
  | none => .error .intErr
  | some mn => do
    let s ← plexStrict s
    let (mx, s) ←
      if s.token = GTok.char ',' then do
        let s ← plexStrict s
        if s.token = GTok.number then
          match parseInt? s.value with
          | none => .error .intErr
          | some mx => do
            let s ← plexStrict s
            pure (mx, s)
        else pure (maxInt64, s)
      else pure (mn, s)
    if s.token ≠ GTok.char '\x7d' then .error .expectedRBrace else do
    let s ← plexTol s
    .ok (some (.repeatTerm mn mx commas op), s)

mutual

/-- `parseOneOf`: `|`-separated alternatives; a single operand collapses. -/
def parseOneOf : Nat → PState → Except PErr (Term × PState)
  | 0, _ => .error .fuelOut
  | f+1, s => do
    let (ops, s) ← parseOneOfOps f s
    match ops with
    | [t] => .ok (t, s)
    | _ => .ok ((.oneOf ops : Term), s)

def parseOneOfOps : Nat → PState → Except PErr (List Term × PState)
  | 0, _ => .error .fuelOut
  | f+1, s => do
    let (op, s) ← parseAnyOf f s
    if s.token = GTok.char '|' then do
      let s ← plexStrict s
      let (ops, s) ← parseOneOfOps f s
      .ok (op :: ops, s)
    else .ok ([op], s)

/-- `parseAnyOf`: `||`-separated operands; a single operand collapses. -/
def parseAnyOf : Nat → PState → Except PErr (Term × PState)
  | 0, _ => .error .fuelOut
  | f+1, s => do
    let (ops, s) ← parseAnyOfOps f s
    match ops with
    | [t] => .ok (t, s)
    | _ => .ok ((.anyOf ops : Term), s)

def parseAnyOfOps : Nat → PState → Except PErr (List Term × PState)
  | 0, _ => .error .fuelOut
  | f+1, s => do
    let (op, s) ← parseAllOf f s
    if s.token = GTok.anyOf then do
      let s ← plexStrict s
      let (ops, s) ← parseAnyOfOps f s
      .ok (op :: ops, s)
    else .ok ([op], s)

/-- `parseAllOf`: `&&`-separated operands; a single operand collapses. -/
def parseAllOf : Nat → PState → Except PErr (Term × PState)
  | 0, _ => .error .fuelOut
  | f+1, s => do
    let (ops, s) ← parseAllOfOps f s
    match ops with
    | [t] => .ok (t, s)
    | _ => .ok ((.allOf ops : Term), s)

def parseAllOfOps : Nat → PState → Except PErr (List Term × PState)
  | 0, _ => .error .fuelOut
  | f+1, s => do
    let (op, s) ← parseSeq f s
    if s.token = GTok.allOf then do
      let s ← plexStrict s
      let (ops, s) ← parseAllOfOps f s
      .ok (op :: ops, s)
    else .ok ([op], s)

/-- `parseSeq`: an optional `?ident` capture-name prefix, then juxtaposed
multipliers; a single unnamed operand collapses. -/
def parseSeq : Nat → PState → Except PErr (Term × PState)
  | 0, _ => .error .fuelOut
  | f+1, s => do
    let (name, s) ←
      if s.token = GTok.char '?' then do
        let s ← plexStrict s
        if s.token ≠ GTok.ident then .error .expectedIdent else do
        let name := s.value
        let s ← plexStrict s
        pure (name, s)
      else pure ("", s)
    let (ops, s) ← parseSeqOps f s
    match ops, name with
    | [t], "" => .ok (t, s)
    | _, _ => .ok ((.seq name ops : Term), s)

def parseSeqOps : Nat → PState → Except PErr (List Term × PState)
  | 0, _ => .error .fuelOut
  | f+1, s => do
    let (op?, s) ← parseMultiplier f s
    match op? with
    | none => .ok ([], s)
    | some op =>
      if s.token = GTok.char ']' ∨ s.token = GTok.char '|'
          ∨ s.token = GTok.anyOf ∨ s.token = GTok.allOf then
        .ok ([op], s)
      else do
        let (ops, s) ← parseSeqOps f s
        .ok (op :: ops, s)

/-- `parseMultiplier`: a multipliable operand followed by an optional
multiplier suffix (`*`, `+`, `?`, `!` after a group, `#`, `{m[,n]}`,
`#{m,n}`). -/
def parseMultiplier : Nat → PState → Except PErr (Option Term × PState)
  | 0, _ => .error .fuelOut
  | f+1, s => do
    let (op?, s) ← parseMultipliable f s
    match op? with
    | none => .ok (none, s)
    | some op =>
      match s.token with
      | .char '*' => do
        let s ← plexTol s
        .ok (some (.zeroOrMore op), s)
      | .char '+' => do
        let s ← plexTol s
        .ok (some (.oneOrMore op), s)
      | .char '?' => do
        let s ← plexTol s
        .ok (some (.zeroOrOne op), s)
      | .char '!' =>
        match op with
        | .group n _ o => do
          let s ← plexTol s
          .ok (some (.group n true o), s)
        | _ => .error .expectedGroup
      | .char '#' => do
        let s ← plexTol s
        if s.token ≠ GTok.char '\x7b' then
          .ok (some (.repeatTerm 1 maxInt64 true op), s)
        else parseRepeatTail op true s
      | .char '\x7b' => parseRepeatTail op false s
      | _ => .ok (some op, s)

/-- `parseMultipliable`: a group, a type, a keyword or a literal; a stray
comma between terms is consumed and turned into a literal of the *next*
token's text (the source's comment notwithstanding); the zero token (end of
input) yields no operand. -/
def parseMultipliable : Nat → PState → Except PErr (Option Term × PState)
  | 0, _ => .error .fuelOut
  | f+1, s =>
    match s.token with
    | .char '[' => do
      let (g, s) ← parseGroup f s
      .ok (some g, s)
    | .char '<' => do
      let (t, s) ← parseType s
      .ok (some t, s)
    | .ident => do
      let v := s.value
      let s ← plexTol s
      .ok (some (.keyword v), s)
    | .literal => do
      let v := s.value
      let s ← plexTol s
      .ok (some (.literal v), s)
    | .char ',' => do
      let s ← plexTol s
      .ok (some (.literal (runeString s.token)), s)
    | .char '\x00' => .ok (none, s)
    | _ => .error .expectedOperand

/-- `parseGroup`: `[ oneOf ]` with an optional `?ident` capture-name prefix. -/
def parseGroup : Nat → PState → Except PErr (Term × PState)
  | 0, _ => .error .fuelOut
  | f+1, s => do
    let s ← plexStrict s
    let (name, s) ←
      if s.token = GTok.char '?' then do
        let s ← plexStrict s
        if s.token ≠ GTok.ident then .error .expectedIdent else do
        let name := s.value
        let s ← plexStrict s
        pure (name, s)
      else pure ("", s)
    let (op, s) ← parseOneOf f s
    if s.token ≠ GTok.char ']' then .error .expectedRBracket else do
    let s ← plexTol s
    .ok ((.group name false op : Term), s)

end

/-- `ParseGrammar`: lex the first token, parse a top-level `oneOf`, and fail
if a token remains. -/
def ParseGrammar (fuel : Nat) (text : List Char) : Except PErr Term := do
  let s0 : PState := ⟨⟨text, none, false⟩, .char '\x00', ""⟩
  let s ← plexStrict s0
  let (t, s) ← parseOneOf fuel s
  if s.token ≠ GTok.char '\x00' then .error .expectedEofErr
  else .ok t

/-! ## Properties under verification -/

/-- Monotone extension of matcher state: the buffer is untouched and the
consumed-token result and captures only grow at the end. -/
def Ext (s s1 : MState) : Prop :=
  s1.buffer = s.buffer ∧ s.result <+: s1.result ∧ s.captures <+: s1.captures

/-- The three rollback components of a matcher state coincide. -/
def Rolled (s s1 : MState) : Prop :=
  s1.offset = s.offset ∧ s1.result = s.result ∧ s1.captures = s.captures

/-- Well-formed matcher state: the accumulated result is exactly the consumed
prefix of the token stream. -/
def WFS (s : MState) : Prop :=
  s.result = s.buffer.take s.offset ∧ s.offset ≤ s.buffer.length

/-- The combinator-arity invariant claimed for parser output: `AllOf`,
`AnyOf` and `OneOf` nodes have at least two operands, and a `Seq` node has at
least two operands or carries a non-empty capture name. -/
inductive CombOk : Term → Prop where
  | keyword (s) : CombOk (.keyword s)
  | basicType (b) : CombOk (.basicType b)
  | propertyType (s) : CombOk (.propertyType s)
  | nonTerminal (s) : CombOk (.nonTerminal s)
  | literal (s) : CombOk (.literal s)
  | seq (name : String) (ops : List Term) : (2 ≤ ops.length ∨ name ≠ "") →
      (∀ t ∈ ops, CombOk t) → CombOk (.seq name ops)
  | allOf (ops : List Term) : 2 ≤ ops.length → (∀ t ∈ ops, CombOk t) → CombOk (.allOf ops)
  | anyOf (ops : List Term) : 2 ≤ ops.length → (∀ t ∈ ops, CombOk t) → CombOk (.anyOf ops)
  | oneOf (ops : List Term) : 2 ≤ ops.length → (∀ t ∈ ops, CombOk t) → CombOk (.oneOf ops)
  | group (name req op) : CombOk op → CombOk (.group name req op)
  | zeroOrMore (op) : CombOk op → CombOk (.zeroOrMore op)
  | oneOrMore (op) : CombOk op → CombOk (.oneOrMore op)
  | zeroOrOne (op) : CombOk op → CombOk (.zeroOrOne op)
  | repeatTerm (mn mx commas op) : CombOk op → CombOk (.repeatTerm mn mx commas op)

/-- A notation-lexer state that did not arise from NUL bytes: the unread
input is NUL-free and rune 0 is buffered only as the end-of-input marker
(with the sticky error flag set).  A NUL byte in the input is read by
`readRune` as rune 0 with a nil error, which `lexNext` then returns as the
token 0 that normally means end of input — the source of the `Seq{}`
counterexample below. -/
def NLGood (s : NLexer) : Prop :=
  '\x00' ∉ s.rest ∧ (s.buf = some '\x00' → s.err = true)

/-- A lexing step from a NUL-free state lands in a NUL-free state and
returns the token 0 only together with an error. -/
def GoodRes : LexRes → Prop
  | (t, _, lx, e) => NLGood lx ∧ (t = GTok.char '\x00' → e ≠ none)

def PGood (s : PState) : Prop :=
  NLGood s.lx

/-! ## Concrete fixtures for witnesses and counterexamples -/

def tokA : Token := ⟨.ident, "a"⟩
def tokB : Token := ⟨.ident, "b"⟩
def tokC : Token := ⟨.ident, "c"⟩
def tokN0 : Token := ⟨.number, "0"⟩
def tokN3 : Token := ⟨.number, "3"⟩
def tokFoo : Token := ⟨.ident, "foo"⟩
def tokComma : Token := ⟨.comma, ","⟩

def ctxEmpty : Context := ⟨[], [], []⟩

/-- A context resolving the property name `x` to a grammar that matches the
single identifier `a`. -/
def ctxProp : Context := ⟨[("x", .keyword "a")], [], []⟩

/-- The context of the viewBox capture test: each non-terminal is bound to
`<number>`. -/
def ctxMinXY : Context :=
  ⟨[], [("min-x", .basicType ⟨"number", none⟩), ("min-y", .basicType ⟨"number", none⟩)], []⟩

def rep24 : Term := .repeatTerm 2 4 false (.keyword "a")
def rep24c : Term := .repeatTerm 2 4 true (.keyword "a")
def abcAllOf : Term := .allOf [.keyword "a", .keyword "b", .keyword "c"]
def permBase : List Token := [tokA, tokB, tokC]
def c8Term : Term := .seq "" [.nonTerminal "min-x", .zeroOrOne (.literal "?"), .nonTerminal "min-y"]
def c10Term : Term := .repeatTerm 1 maxInt64 true (.basicType ⟨"custom-ident", none⟩)

/-! ## Theorems -/

/-! ### State-extension and well-formedness toolbox -/

theorem ext_refl (s : MState) : Ext s s := ⟨rfl, List.prefix_rfl, List.prefix_rfl⟩

theorem ext_trans {s1 s2 s3 : MState} (h1 : Ext s1 s2) (h2 : Ext s2 s3) : Ext s1 s3 :=
  ⟨h2.1.trans h1.1, h1.2.1.trans h2.2.1, h1.2.2.trans h2.2.2⟩

theorem ext_chomp (s : MState) : Ext s (mChomp s) :=
  ⟨rfl, ⟨[s.buffer.getD s.offset errTok], rfl⟩, List.prefix_rfl⟩

theorem ext_capture (s : MState) (c : Capture) :
    Ext s { s with captures := s.captures ++ [c] } :=
  ⟨rfl, List.prefix_rfl, ⟨[c], rfl⟩⟩

theorem ext_offset (s : MState) (o : Nat) : Ext s { s with offset := o } :=
  ⟨rfl, List.prefix_rfl, List.prefix_rfl⟩

theorem take_len_of_prefix {α : Type} {l1 l2 : List α} (h : l1 <+: l2) :
    l2.take l1.length = l1 :=
  (List.prefix_iff_eq_take.mp h).symm

/-- The state built by the rollback arm of `mWrap` restores the three
counters and is still an extension of the entry state. -/
theorem rollback_props {s s1 : MState} (h : Ext s s1) :
    Rolled s ⟨s1.buffer, s.offset, s1.result.take s.result.length,
      s1.captures.take s.captures.length⟩
    ∧ Ext s ⟨s1.buffer, s.offset, s1.result.take s.result.length,
      s1.captures.take s.captures.length⟩ := by
  have hr : s1.result.take s.result.length = s.result := take_len_of_prefix h.2.1
  have hc : s1.captures.take s.captures.length = s.captures := take_len_of_prefix h.2.2
  refine ⟨⟨rfl, hr, hc⟩, h.1, ?_, ?_⟩
  · rw [hr]
  · rw [hc]

theorem wfs_of_rolled {s s1 : MState} (hb : s1.buffer = s.buffer) (h : Rolled s s1)
    (hw : WFS s) : WFS s1 := by
  obtain ⟨ho, hr, hc⟩ := h
  refine ⟨?_, ?_⟩
  · rw [hr, hb, ho]; exact hw.1
  · rw [hb, ho]; exact hw.2

theorem mPeek_of_oob {s : MState} (h : s.buffer.length ≤ s.offset) : mPeek s = errTok :=
  List.getD_eq_default _ _ h

theorem offset_lt_of_peek {s : MState} (h : (mPeek s).type ≠ TokType.error) :
    s.offset < s.buffer.length := by
  by_contra hge
  push_neg at hge
  rw [mPeek_of_oob hge] at h
  exact h rfl

theorem wfs_chomp {s : MState} (hw : WFS s) (h : (mPeek s).type ≠ TokType.error) :
    WFS (mChomp s) := by
  have hlt : s.offset < s.buffer.length := offset_lt_of_peek h
  refine ⟨?_, hlt⟩
  show s.result ++ [s.buffer.getD s.offset errTok] = s.buffer.take (s.offset + 1)
  rw [hw.1, List.getD_eq_getElem _ _ hlt]
  exact List.take_concat_get' _ _ hlt

/-- Analysis of the rollback wrapper: if the wrapped per-kind matcher only
extends the state and preserves well-formedness on success, then `mWrap`
extends the state, restores the counters on failure, and preserves
well-formedness unconditionally. -/
theorem mWrap_inv {s : MState} {r : Option (Bool × MState)} {b : Bool} {s1 : MState}
    (hr : ∀ b2 s2, r = some (b2, s2) → Ext s s2 ∧ (WFS s → b2 = true → WFS s2))
    (h : mWrap s r = some (b, s1)) :
    Ext s s1 ∧ (b = false → Rolled s s1) ∧ (WFS s → WFS s1) := by
  cases r with
  | none => exact absurd h (by simp [mWrap])
  | some bs =>
    obtain ⟨b2, s2⟩ := bs
    have hx := hr b2 s2 rfl
    cases b2 with
    | true =>
      simp only [mWrap, if_true, Option.some.injEq, Prod.mk.injEq] at h
      obtain ⟨hb, hs⟩ := h
      subst hb
      subst hs
      refine ⟨hx.1, ?_, fun hw => hx.2 hw rfl⟩
      intro hc
      exact absurd hc (by decide)
    | false =>
      simp only [mWrap, Bool.false_eq_true, if_false, Option.some.injEq, Prod.mk.injEq] at h
      obtain ⟨hb, hs⟩ := h
      subst hb
      subst hs
      obtain ⟨hrold, hext⟩ := rollback_props hx.1
      exact ⟨hext, fun _ => hrold, fun hw => wfs_of_rolled hx.1.1 hrold hw⟩

theorem mMatchKeyword_inv (k : String) (s : MState) :
    Ext s (mMatchKeyword k s).2
    ∧ (WFS s → (mMatchKeyword k s).1 = true → WFS (mMatchKeyword k s).2) := by
  unfold mMatchKeyword
  by_cases hc : (mPeek s).type = TokType.ident ∧ (mPeek s).value = k
  · rw [if_pos hc]
    exact ⟨ext_chomp s, fun hw _ => wfs_chomp hw (by rw [hc.1]; decide)⟩
  · rw [if_neg hc]
    exact ⟨ext_refl s, fun _ hb => Bool.noConfusion hb⟩

theorem litExpect_ne_error (t : String) : litExpect t ≠ TokType.error := by
  unfold litExpect
  split_ifs <;> decide

theorem mMatchLiteral_inv (v : String) (s : MState) :
    Ext s (mMatchLiteral v s).2
    ∧ (WFS s → (mMatchLiteral v s).1 = true → WFS (mMatchLiteral v s).2) := by
  unfold mMatchLiteral
  by_cases hc : (mPeek s).type = litExpect v ∧ (mPeek s).value = v
  · rw [if_pos hc]
    exact ⟨ext_chomp s, fun hw _ => wfs_chomp hw (by rw [hc.1]; exact litExpect_ne_error v)⟩
  · rw [if_neg hc]
    exact ⟨ext_refl s, fun _ hb => Bool.noConfusion hb⟩

theorem mPrim_inv {tt : TokType} (htt : tt ≠ TokType.error) {s : MState} {b : Bool}
    {s1 : MState} (h : some (mPrim tt s) = some (b, s1)) :
    Ext s s1 ∧ (WFS s → b = true → WFS s1) := by
  injection h with h2
  unfold mPrim at h2
  by_cases hc : (mPeek s).type = tt
  · rw [if_pos hc] at h2
    simp only [Prod.mk.injEq] at h2
    obtain ⟨hb, hs⟩ := h2
    subst hb
    subst hs
    exact ⟨ext_chomp s, fun hw _ => wfs_chomp hw (by rw [hc]; exact htt)⟩
  · rw [if_neg hc] at h2
    simp only [Prod.mk.injEq] at h2
    obtain ⟨hb, hs⟩ := h2
    subst hb
    subst hs
    exact ⟨ext_refl s, fun _ hb => Bool.noConfusion hb⟩

theorem mPrimColor_inv {s : MState} {b : Bool} {s1 : MState}
    (h : some (mPrimColor s) = some (b, s1)) :
    Ext s s1 ∧ (WFS s → b = true → WFS s1) := by
  injection h with h2
  unfold mPrimColor at h2
  by_cases hc : (mPeek s).type = TokType.hash ∨ (mPeek s).type = TokType.ident
  · rw [if_pos hc] at h2
    simp only [Prod.mk.injEq] at h2
    obtain ⟨hb, hs⟩ := h2
    subst hb
    subst hs
    refine ⟨ext_chomp s, fun hw _ => wfs_chomp hw ?_⟩
    rcases hc with hc | hc <;> rw [hc] <;> decide
  · rw [if_neg hc] at h2
    simp only [Prod.mk.injEq] at h2
    obtain ⟨hb, hs⟩ := h2
    subst hb
    subst hs
    exact ⟨ext_refl s, fun _ hb => Bool.noConfusion hb⟩

/-- The master invariant of the matcher, by induction on fuel: every match
function only extends the state (buffer untouched, result and captures grown
at the end), `mMatch` restores the three rollback counters verbatim on
failure, and the consumed-prefix well-formedness is preserved (for the
per-kind helpers, on success; for `matchFunction`, additionally assuming the
function-start token its caller has peeked is not the error token). -/
theorem matcher_inv (f : Nat) :
    (∀ ctx t s b s1, mMatch f ctx t s = some (b, s1) →
        Ext s s1 ∧ (b = false → Rolled s s1) ∧ (WFS s → WFS s1))
  ∧ (∀ ctx name s b s1, mMatchBasicType f ctx name s = some (b, s1) →
        Ext s s1 ∧ (WFS s → b = true → WFS s1))
  ∧ (∀ ctx s r s1, mMatchFunction f ctx s = some (r, s1) →
        Ext s s1 ∧ (WFS s → (mPeek s).type ≠ TokType.error → r.isSome = true → WFS s1))
  ∧ (∀ ctx ps s b s1, mMatchParams f ctx ps s = some (b, s1) →
        Ext s s1 ∧ (WFS s → WFS s1))
  ∧ (∀ ctx n s b s1, mMatchPropertyType f ctx n s = some (b, s1) →
        Ext s s1 ∧ (WFS s → WFS s1))
  ∧ (∀ ctx n s b s1, mMatchNonTerminal f ctx n s = some (b, s1) →
        Ext s s1 ∧ (WFS s → WFS s1))
  ∧ (∀ ctx nm ops s b s1, mMatchSeq f ctx nm ops s = some (b, s1) →
        Ext s s1 ∧ (WFS s → WFS s1))
  ∧ (∀ ctx ops s b s1, mMatchSeqOps f ctx ops s = some (b, s1) →
        Ext s s1 ∧ (WFS s → WFS s1))
  ∧ (∀ ctx ops s b s1, mMatchAllOfLoop f ctx ops s = some (b, s1) →
        Ext s s1 ∧ (WFS s → WFS s1))
  ∧ (∀ ctx ops s r s1, mAllOfScan f ctx ops s = some (r, s1) →
        Ext s s1 ∧ (WFS s → WFS s1))
  ∧ (∀ ctx ops s b s1, mMatchAnyOf f ctx ops s = some (b, s1) →
        Ext s s1 ∧ (WFS s → WFS s1))
  ∧ (∀ ctx ops s b s1, mAnyOfLoop f ctx ops s = some (b, s1) →
        Ext s s1 ∧ (WFS s → WFS s1))
  ∧ (∀ ctx ops s b s1, mMatchOneOf f ctx ops s = some (b, s1) →
        Ext s s1 ∧ (WFS s → WFS s1))
  ∧ (∀ ctx nm op s b s1, mMatchGroup f ctx nm op s = some (b, s1) →
        Ext s s1 ∧ (WFS s → WFS s1))
  ∧ (∀ ctx op s b s1, mZomLoop f ctx op s = some (b, s1) →
        Ext s s1 ∧ (WFS s → WFS s1))
  ∧ (∀ ctx op s b s1, mMatchOneOrMore f ctx op s = some (b, s1) →
        Ext s s1 ∧ (WFS s → WFS s1))
  ∧ (∀ ctx op s b s1, mMatchZeroOrOne f ctx op s = some (b, s1) →
        Ext s s1 ∧ (WFS s → WFS s1))
  ∧ (∀ ctx mn mx cm op n s b s1, mMatchRepeat f ctx mn mx cm op n s = some (b, s1) →
        Ext s s1 ∧ (WFS s → WFS s1)) := by
  induction f with
  | zero =>
    refine ⟨?_, ?_, ?_, ?_, ?_, ?_, ?_, ?_, ?_, ?_, ?_, ?_, ?_, ?_, ?_, ?_, ?_, ?_⟩ <;>
      intros <;>
      simp_all only [mMatch, mMatchBasicType, mMatchFunction, mMatchParams,
        mMatchPropertyType, mMatchNonTerminal, mMatchSeq, mMatchSeqOps, mMatchAllOfLoop,
        mAllOfScan, mMatchAnyOf, mAnyOfLoop, mMatchOneOf, mMatchGroup, mZomLoop,
        mMatchOneOrMore, mMatchZeroOrOne, mMatchRepeat, reduceCtorEq]
  | succ f ih =>
    obtain ⟨ihM, ihBT, ihFn, ihPar, ihPT, ihNT, ihSeq, ihSO, ihAL, ihAS, ihAny, ihAnyL,
      ihOne, ihGrp, ihZom, ihOom, ihZoo, ihRep⟩ := ih
    refine ⟨?_, ?_, ?_, ?_, ?_, ?_, ?_, ?_, ?_, ?_, ?_, ?_, ?_, ?_, ?_, ?_, ?_, ?_⟩
    -- mMatch
    · intro ctx t s b s1 h
      cases t with
      | keyword k =>
        simp only [mMatch] at h
        refine mWrap_inv ?_ h
        intro b2 s2 hk
        injection hk with hk
        obtain ⟨h1, h2⟩ := mMatchKeyword_inv k s
        rw [hk] at h1 h2
        exact ⟨h1, h2⟩
      | basicType bt =>
        simp only [mMatch] at h
        exact mWrap_inv (fun b2 s2 hk => ihBT ctx bt.name s b2 s2 hk) h
      | propertyType n =>
        simp only [mMatch] at h
        refine mWrap_inv (fun b2 s2 hk => ?_) h
        have hx := ihPT ctx n s b2 s2 hk
        exact ⟨hx.1, fun hw _ => hx.2 hw⟩
      | nonTerminal n =>
        simp only [mMatch] at h
        refine mWrap_inv (fun b2 s2 hk => ?_) h
        have hx := ihNT ctx n s b2 s2 hk
        exact ⟨hx.1, fun hw _ => hx.2 hw⟩
      | literal v =>
        simp only [mMatch] at h
        refine mWrap_inv ?_ h
        intro b2 s2 hk
        injection hk with hk
        obtain ⟨h1, h2⟩ := mMatchLiteral_inv v s
        rw [hk] at h1 h2
        exact ⟨h1, h2⟩
      | seq nm ops =>
        simp only [mMatch] at h
        refine mWrap_inv (fun b2 s2 hk => ?_) h
        have hx := ihSeq ctx nm ops s b2 s2 hk
        exact ⟨hx.1, fun hw _ => hx.2 hw⟩
      | allOf ops =>
        simp only [mMatch] at h
        refine mWrap_inv (fun b2 s2 hk => ?_) h
        have hx := ihAL ctx ops s b2 s2 hk
        exact ⟨hx.1, fun hw _ => hx.2 hw⟩
      | anyOf ops =>
        simp only [mMatch] at h
        refine mWrap_inv (fun b2 s2 hk => ?_) h
        have hx := ihAny ctx ops s b2 s2 hk
        exact ⟨hx.1, fun hw _ => hx.2 hw⟩
      | oneOf ops =>
        simp only [mMatch] at h
        refine mWrap_inv (fun b2 s2 hk => ?_) h
        have hx := ihOne ctx ops s b2 s2 hk
        exact ⟨hx.1, fun hw _ => hx.2 hw⟩
      | group nm req op =>
        simp only [mMatch] at h
        refine mWrap_inv (fun b2 s2 hk => ?_) h
        have hx := ihGrp ctx nm op s b2 s2 hk
        exact ⟨hx.1, fun hw _ => hx.2 hw⟩
      | zeroOrMore op =>
        simp only [mMatch] at h
        refine mWrap_inv (fun b2 s2 hk => ?_) h
        have hx := ihZom ctx op s b2 s2 hk
        exact ⟨hx.1, fun hw _ => hx.2 hw⟩
      | oneOrMore op =>
        simp only [mMatch] at h
        refine mWrap_inv (fun b2 s2 hk => ?_) h
        have hx := ihOom ctx op s b2 s2 hk
        exact ⟨hx.1, fun hw _ => hx.2 hw⟩
      | zeroOrOne op =>
        simp only [mMatch] at h
        refine mWrap_inv (fun b2 s2 hk => ?_) h
        have hx := ihZoo ctx op s b2 s2 hk
        exact ⟨hx.1, fun hw _ => hx.2 hw⟩
      | repeatTerm mn mx cm op =>
        simp only [mMatch] at h
        refine mWrap_inv (fun b2 s2 hk => ?_) h
        have hx := ihRep ctx mn mx cm op 0 s b2 s2 hk
        exact ⟨hx.1, fun hw _ => hx.2 hw⟩
    -- mMatchBasicType
    · intro ctx name s b s1 h
      simp only [mMatchBasicType] at h
      by_cases hf : (mPeek s).type = TokType.function
      · rw [if_pos hf] at h
        split at h
        · exact Option.noConfusion h
        · rename_i s2 heq
          simp only [Option.some.injEq, Prod.mk.injEq] at h
          obtain ⟨hb, hs⟩ := h
          subst hb
          subst hs
          have hx := ihFn ctx s none s2 heq
          exact ⟨hx.1, fun _ hb2 => Bool.noConfusion hb2⟩
        · rename_i fn s2 heq
          simp only [Option.some.injEq, Prod.mk.injEq] at h
          obtain ⟨hb, hs⟩ := h
          subst hb
          subst hs
          have hx := ihFn ctx s (some fn) s2 heq
          exact ⟨hx.1, fun hw _ => hx.2 hw (by rw [hf]; decide) rfl⟩
      · rw [if_neg hf] at h
        split_ifs at h
        · exact mPrim_inv (by decide) h
        · exact mPrim_inv (by decide) h
        · exact mPrim_inv (by decide) h
        · exact mPrimColor_inv h
        · exact mPrim_inv (by decide) h
        · exact mPrim_inv (by decide) h
        · exact mPrim_inv (by decide) h
        · have hx := ihM ctx ratioTerm s b s1 h
          exact ⟨hx.1, fun hw _ => hx.2.2 hw⟩
    -- mMatchFunction
    · intro ctx s r s1 h
      simp only [mMatchFunction] at h
      split at h
      · simp only [Option.some.injEq, Prod.mk.injEq] at h
        obtain ⟨hr, hs⟩ := h
        subst hr
        subst hs
        exact ⟨ext_refl s, fun _ _ hi => Bool.noConfusion hi⟩
      · rename_i fn heq
        split at h
        · exact Option.noConfusion h
        · rename_i s2 heq2
          simp only [Option.some.injEq, Prod.mk.injEq] at h
          obtain ⟨hr, hs⟩ := h
          subst hr
          subst hs
          have hx := ihPar ctx fn.params (mChomp s) false s2 heq2
          refine ⟨ext_trans (ext_trans (ext_chomp s) hx.1) (ext_offset s2 s.offset), ?_⟩
          exact fun _ _ hi => Bool.noConfusion hi
        · rename_i s2 heq2
          have hx := ihPar ctx fn.params (mChomp s) true s2 heq2
          by_cases hrp : (mPeek s2).type = TokType.rightParen
          · rw [if_pos hrp] at h
            simp only [Option.some.injEq, Prod.mk.injEq] at h
            obtain ⟨hr, hs⟩ := h
            subst hr
            subst hs
            refine ⟨ext_trans (ext_trans (ext_chomp s) hx.1) (ext_chomp s2), ?_⟩
            intro hw hpe _
            exact wfs_chomp (hx.2 (wfs_chomp hw hpe)) (by rw [hrp]; decide)
          · rw [if_neg hrp] at h
            simp only [Option.some.injEq, Prod.mk.injEq] at h
            obtain ⟨hr, hs⟩ := h
            subst hr
            subst hs
            refine ⟨ext_trans (ext_trans (ext_chomp s) hx.1) (ext_offset s2 s.offset), ?_⟩
            exact fun _ _ hi => Bool.noConfusion hi
    -- mMatchParams
    · intro ctx ps s b s1 h
      cases ps with
      | nil =>
        simp only [mMatchParams, Option.some.injEq, Prod.mk.injEq] at h
        obtain ⟨hb, hs⟩ := h
        subst hs
        exact ⟨ext_refl s, fun hw => hw⟩
      | cons p rest =>
        simp only [mMatchParams] at h
        split at h
        · exact Option.noConfusion h
        · rename_i s2 heq
          simp only [Option.some.injEq, Prod.mk.injEq] at h
          obtain ⟨hb, hs⟩ := h
          subst hs
          have hx := ihM ctx p s false s2 heq
          exact ⟨hx.1, hx.2.2⟩
        · rename_i s2 heq
          have hx := ihM ctx p s true s2 heq
          by_cases hcm : ¬ rest.isEmpty ∧ (mPeek s2).type = TokType.comma
          · rw [if_pos hcm] at h
            have hy := ihPar ctx rest (mChomp s2) b s1 h
            refine ⟨ext_trans (ext_trans hx.1 (ext_chomp s2)) hy.1, ?_⟩
            intro hw
            exact hy.2 (wfs_chomp (hx.2.2 hw) (by rw [hcm.2]; decide))
          · rw [if_neg hcm] at h
            have hy := ihPar ctx rest s2 b s1 h
            exact ⟨ext_trans hx.1 hy.1, fun hw => hy.2 (hx.2.2 hw)⟩
    -- mMatchPropertyType
    · intro ctx n s b s1 h
      simp only [mMatchPropertyType] at h
      split at h
      · simp only [Option.some.injEq, Prod.mk.injEq] at h
        obtain ⟨hb, hs⟩ := h
        subst hs
        exact ⟨ext_refl s, fun hw => hw⟩
      · rename_i term heq
        split at h
        · exact Option.noConfusion h
        · rename_i s2 heq2
          simp only [Option.some.injEq, Prod.mk.injEq] at h
          obtain ⟨hb, hs⟩ := h
          subst hs
          have hx := ihM ctx term s false s2 heq2
          exact ⟨hx.1, hx.2.2⟩
        · rename_i s2 heq2
          simp only [Option.some.injEq, Prod.mk.injEq] at h
          obtain ⟨hb, hs⟩ := h
          subst hs
          have hx := ihM ctx term s true s2 heq2
          exact ⟨ext_trans hx.1 (ext_capture s2 _), fun hw => hx.2.2 hw⟩
    -- mMatchNonTerminal
    · intro ctx n s b s1 h
      simp only [mMatchNonTerminal] at h
      split at h
      · simp only [Option.some.injEq, Prod.mk.injEq] at h
        obtain ⟨hb, hs⟩ := h
        subst hs
        exact ⟨ext_refl s, fun hw => hw⟩
      · rename_i term heq
        split at h
        · exact Option.noConfusion h
        · rename_i s2 heq2
          simp only [Option.some.injEq, Prod.mk.injEq] at h
          obtain ⟨hb, hs⟩ := h
          subst hs
          have hx := ihM ctx term s false s2 heq2
          exact ⟨hx.1, hx.2.2⟩
        · rename_i s2 heq2
          simp only [Option.some.injEq, Prod.mk.injEq] at h
          obtain ⟨hb, hs⟩ := h
          subst hs
          have hx := ihM ctx term s true s2 heq2
          exact ⟨ext_trans hx.1 (ext_capture s2 _), fun hw => hx.2.2 hw⟩
    -- mMatchSeq
    · intro ctx nm ops s b s1 h
      simp only [mMatchSeq] at h
      split at h
      · exact Option.noConfusion h
      · rename_i s2 heq
        simp only [Option.some.injEq, Prod.mk.injEq] at h
        obtain ⟨hb, hs⟩ := h
        subst hs
        exact ihSO ctx ops s false s2 heq
      · rename_i s2 heq
        have hx := ihSO ctx ops s true s2 heq
        by_cases hnm : nm ≠ ""
        · rw [if_pos hnm] at h
          simp only [Option.some.injEq, Prod.mk.injEq] at h
          obtain ⟨hb, hs⟩ := h
          subst hs
          exact ⟨ext_trans hx.1 (ext_capture s2 _), fun hw => hx.2 hw⟩
        · rw [if_neg hnm] at h
          simp only [Option.some.injEq, Prod.mk.injEq] at h
          obtain ⟨hb, hs⟩ := h
          subst hs
          exact hx
    -- mMatchSeqOps
    · intro ctx ops s b s1 h
      cases ops with
      | nil =>
        simp only [mMatchSeqOps, Option.some.injEq, Prod.mk.injEq] at h
        obtain ⟨hb, hs⟩ := h
        subst hs
        exact ⟨ext_refl s, fun hw => hw⟩
      | cons t rest =>
        simp only [mMatchSeqOps] at h
        split at h
        · exact Option.noConfusion h
        · rename_i s2 heq
          simp only [Option.some.injEq, Prod.mk.injEq] at h
          obtain ⟨hb, hs⟩ := h
          subst hs
          have hx := ihM ctx t s false s2 heq
          exact ⟨hx.1, hx.2.2⟩
        · rename_i s2 heq
          have hx := ihM ctx t s true s2 heq
          have hy := ihSO ctx rest s2 b s1 h
          exact ⟨ext_trans hx.1 hy.1, fun hw => hy.2 (hx.2.2 hw)⟩
    -- mMatchAllOfLoop
    · intro ctx ops s b s1 h
      simp only [mMatchAllOfLoop] at h
      split_ifs at h
      · simp only [Option.some.injEq, Prod.mk.injEq] at h
        obtain ⟨hb, hs⟩ := h
        subst hs
        exact ⟨ext_refl s, fun hw => hw⟩
      · simp only [Option.some.injEq, Prod.mk.injEq] at h
        obtain ⟨hb, hs⟩ := h
        subst hs
        exact ⟨ext_refl s, fun hw => hw⟩
      · split at h
        · exact Option.noConfusion h
        · rename_i s2 heq
          simp only [Option.some.injEq, Prod.mk.injEq] at h
          obtain ⟨hb, hs⟩ := h
          subst hs
          exact ihAS ctx ops s none s2 heq
        · rename_i p1 s2 heq
          have hx := ihAS ctx ops s (some p1) s2 heq
          have hy := ihAL ctx p1 s2 b s1 h
          exact ⟨ext_trans hx.1 hy.1, fun hw => hy.2 (hx.2 hw)⟩
    -- mAllOfScan
    · intro ctx ops s r s1 h
      cases ops with
      | nil =>
        simp only [mAllOfScan, Option.some.injEq, Prod.mk.injEq] at h
        obtain ⟨hb, hs⟩ := h
        subst hs
        exact ⟨ext_refl s, fun hw => hw⟩
      | cons t rest =>
        simp only [mAllOfScan] at h
        split at h
        · exact Option.noConfusion h
        · rename_i s2 heq
          simp only [Option.some.injEq, Prod.mk.injEq] at h
          obtain ⟨hb, hs⟩ := h
          subst hs
          have hx := ihM ctx t s true s2 heq
          exact ⟨hx.1, hx.2.2⟩
        · rename_i s2 heq
          have hx := ihM ctx t s false s2 heq
          split at h
          · exact Option.noConfusion h
          · rename_i s3 heq2
            simp only [Option.some.injEq, Prod.mk.injEq] at h
            obtain ⟨hb, hs⟩ := h
            subst hs
            have hy := ihAS ctx rest s2 none s3 heq2
            exact ⟨ext_trans hx.1 hy.1, fun hw => hy.2 (hx.2.2 hw)⟩
          · rename_i rest1 s3 heq2
            simp only [Option.some.injEq, Prod.mk.injEq] at h
            obtain ⟨hb, hs⟩ := h
            subst hs
            have hy := ihAS ctx rest s2 (some rest1) s3 heq2
            exact ⟨ext_trans hx.1 hy.1, fun hw => hy.2 (hx.2.2 hw)⟩
    -- mMatchAnyOf
    · intro ctx ops s b s1 h
      simp only [mMatchAnyOf] at h
      split at h
      · exact Option.noConfusion h
      · rename_i s2 heq
        simp only [Option.some.injEq, Prod.mk.injEq] at h
        obtain ⟨hb, hs⟩ := h
        subst hs
        exact ihOne ctx ops s false s2 heq
      · rename_i s2 heq
        have hx := ihOne ctx ops s true s2 heq
        have hy := ihAnyL ctx ops s2 b s1 h
        exact ⟨ext_trans hx.1 hy.1, fun hw => hy.2 (hx.2 hw)⟩
    -- mAnyOfLoop
    · intro ctx ops s b s1 h
      simp only [mAnyOfLoop] at h
      split at h
      · exact Option.noConfusion h
      · rename_i s2 heq
        simp only [Option.some.injEq, Prod.mk.injEq] at h
        obtain ⟨hb, hs⟩ := h
        subst hs
        exact ihOne ctx ops s false s2 heq
      · rename_i s2 heq
        have hx := ihOne ctx ops s true s2 heq
        have hy := ihAnyL ctx ops s2 b s1 h
        exact ⟨ext_trans hx.1 hy.1, fun hw => hy.2 (hx.2 hw)⟩
    -- mMatchOneOf
    · intro ctx ops s b s1 h
      cases ops with
      | nil =>
        simp only [mMatchOneOf, Option.some.injEq, Prod.mk.injEq] at h
        obtain ⟨hb, hs⟩ := h
        subst hs
        exact ⟨ext_refl s, fun hw => hw⟩
      | cons t rest =>
        simp only [mMatchOneOf] at h
        split at h
        · exact Option.noConfusion h
        · rename_i s2 heq
          simp only [Option.some.injEq, Prod.mk.injEq] at h
          obtain ⟨hb, hs⟩ := h
          subst hs
          have hx := ihM ctx t s true s2 heq
          exact ⟨hx.1, hx.2.2⟩
        · rename_i s2 heq
          have hx := ihM ctx t s false s2 heq
          have hy := ihOne ctx rest s2 b s1 h
          exact ⟨ext_trans hx.1 hy.1, fun hw => hy.2 (hx.2.2 hw)⟩
    -- mMatchGroup
    · intro ctx nm op s b s1 h
      simp only [mMatchGroup] at h
      split at h
      · exact Option.noConfusion h
      · rename_i s2 heq
        simp only [Option.some.injEq, Prod.mk.injEq] at h
        obtain ⟨hb, hs⟩ := h
        subst hs
        have hx := ihM ctx op s false s2 heq
        exact ⟨hx.1, hx.2.2⟩
      · rename_i s2 heq
        have hx := ihM ctx op s true s2 heq
        by_cases hnm : nm ≠ ""
        · rw [if_pos hnm] at h
          simp only [Option.some.injEq, Prod.mk.injEq] at h
          obtain ⟨hb, hs⟩ := h
          subst hs
          exact ⟨ext_trans hx.1 (ext_capture s2 _), fun hw => hx.2.2 hw⟩
        · rw [if_neg hnm] at h
          simp only [Option.some.injEq, Prod.mk.injEq] at h
          obtain ⟨hb, hs⟩ := h
          subst hs
          exact ⟨hx.1, hx.2.2⟩
    -- mZomLoop
    · intro ctx op s b s1 h
      simp only [mZomLoop] at h
      split at h
      · exact Option.noConfusion h
      · rename_i s2 heq
        simp only [Option.some.injEq, Prod.mk.injEq] at h
        obtain ⟨hb, hs⟩ := h
        subst hs
        have hx := ihM ctx op s false s2 heq
        exact ⟨hx.1, hx.2.2⟩
      · rename_i s2 heq
        have hx := ihM ctx op s true s2 heq
        have hy := ihZom ctx op s2 b s1 h
        exact ⟨ext_trans hx.1 hy.1, fun hw => hy.2 (hx.2.2 hw)⟩
    -- mMatchOneOrMore
    · intro ctx op s b s1 h
      simp only [mMatchOneOrMore] at h
      split at h
      · exact Option.noConfusion h
      · rename_i s2 heq
        simp only [Option.some.injEq, Prod.mk.injEq] at h
        obtain ⟨hb, hs⟩ := h
        subst hs
        have hx := ihM ctx op s false s2 heq
        exact ⟨hx.1, hx.2.2⟩
      · rename_i s2 heq
        have hx := ihM ctx op s true s2 heq
        have hy := ihZom ctx op s2 b s1 h
        exact ⟨ext_trans hx.1 hy.1, fun hw => hy.2 (hx.2.2 hw)⟩
    -- mMatchZeroOrOne
    · intro ctx op s b s1 h
      simp only [mMatchZeroOrOne] at h
      split at h
      · exact Option.noConfusion h
      · rename_i b2 s2 heq
        simp only [Option.some.injEq, Prod.mk.injEq] at h
        obtain ⟨hb, hs⟩ := h
        subst hs
        have hx := ihM ctx op s b2 s2 heq
        exact ⟨hx.1, hx.2.2⟩
    -- mMatchRepeat
    · intro ctx mn mx cm op n s b s1 h
      simp only [mMatchRepeat] at h
      split_ifs at h with hlt herr hcm hch
      · simp only [Option.some.injEq, Prod.mk.injEq] at h
        obtain ⟨hb, hs⟩ := h
        subst hs
        exact ⟨ext_refl s, fun hw => hw⟩
      · simp only [Option.some.injEq, Prod.mk.injEq] at h
        obtain ⟨hb, hs⟩ := h
        subst hs
        exact ⟨ext_refl s, fun hw => hw⟩
      · split at h
        · exact Option.noConfusion h
        · rename_i s2 heq
          simp only [Option.some.injEq, Prod.mk.injEq] at h
          obtain ⟨hb, hs⟩ := h
          subst hs
          have hx := ihM ctx op (mChomp s) false s2 heq
          refine ⟨ext_trans (ext_chomp s) hx.1, ?_⟩
          intro hw
          exact hx.2.2 (wfs_chomp hw herr)
        · rename_i s2 heq
          have hx := ihM ctx op (mChomp s) true s2 heq
          have hy := ihRep ctx mn mx cm op (n+1) s2 b s1 h
          refine ⟨ext_trans (ext_trans (ext_chomp s) hx.1) hy.1, ?_⟩
          intro hw
          exact hy.2 (hx.2.2 (wfs_chomp hw herr))
      · split at h
        · exact Option.noConfusion h
        · rename_i s2 heq
          simp only [Option.some.injEq, Prod.mk.injEq] at h
          obtain ⟨hb, hs⟩ := h
          subst hs
          have hx := ihM ctx op s false s2 heq
          exact ⟨hx.1, hx.2.2⟩
        · rename_i s2 heq
          have hx := ihM ctx op s true s2 heq
          have hy := ihRep ctx mn mx cm op (n+1) s2 b s1 h
          exact ⟨ext_trans hx.1 hy.1, fun hw => hy.2 (hx.2.2 hw)⟩
      · simp only [Option.some.injEq, Prod.mk.injEq] at h
        obtain ⟨hb, hs⟩ := h
        subst hs
        exact ⟨ext_refl s, fun hw => hw⟩

/-- C1: rollback atomicity — whenever `match` returns failure, for every term
kind, the matcher's consumption offset, accumulated result-token list and
accumulated captures immediately after the failed attempt equal their values
immediately before it: no partial consumption or capture survives a failed
alternative. -/
theorem c1_rollback_atomicity (f : Nat) (ctx : Context) (t : Term) (s s1 : MState)
    (h : mMatch f ctx t s = some (false, s1)) :
    s1.offset = s.offset ∧ s1.result = s.result ∧ s1.captures = s.captures :=
  ((matcher_inv f).1 ctx t s false s1 h).2.1 rfl

theorem c1_rollback_atomicity_witness :
    (MState.mk [tokB] 0 [] []).offset = (MState.mk [tokB] 0 [] []).offset
    ∧ (MState.mk [tokB] 0 [] []).result = (MState.mk [tokB] 0 [] []).result
    ∧ (MState.mk [tokB] 0 [] []).captures = (MState.mk [tokB] 0 [] []).captures :=
  c1_rollback_atomicity 5 ctxEmpty (.seq "" [.keyword "b", .keyword "a"])
    ⟨[tokB], 0, [], []⟩ ⟨[tokB], 0, [], []⟩ (by decide)

/-- C5: `Match` returns the nil capture list exactly when the term does not
match; every successful result is non-empty and its final element is the
anonymous (empty-named) capture appended after all nested captures, whose
token list is exactly the consumed prefix of the value-token stream. -/
theorem c5_nil_iff_no_match (f : Nat) (ctx : Context) (t : Term) (toks : List Token)
    (cs : List Capture) (h : Match f ctx t toks = some cs) :
    (cs = [] ↔ ∃ s1, mMatch f ctx t ⟨toks, 0, [], []⟩ = some (false, s1))
    ∧ (cs ≠ [] → ∃ s1, mMatch f ctx t ⟨toks, 0, [], []⟩ = some (true, s1)
        ∧ cs = s1.captures ++ [⟨"", s1.result⟩]
        ∧ s1.result = toks.take s1.offset ∧ s1.offset ≤ toks.length) := by
  unfold Match at h
  split at h
  · exact Option.noConfusion h
  · rename_i s2 heq
    injection h with h2
    subst h2
    constructor
    · exact ⟨fun _ => ⟨s2, heq⟩, fun _ => rfl⟩
    · intro hne
      exact absurd rfl hne
  · rename_i s2 heq
    injection h with h2
    subst h2
    have hx := (matcher_inv f).1 ctx t ⟨toks, 0, [], []⟩ true s2 heq
    have hwfs : WFS (⟨toks, 0, [], []⟩ : MState) := ⟨rfl, Nat.zero_le _⟩
    have hw2 := hx.2.2 hwfs
    have hbuf : s2.buffer = toks := hx.1.1
    constructor
    · constructor
      · intro hc
        exact absurd hc (by simp)
      · rintro ⟨s3, heq3⟩
        rw [heq] at heq3
        simp at heq3
    · intro _
      refine ⟨s2, heq, rfl, ?_, ?_⟩
      · rw [← hbuf]
        exact hw2.1
      · rw [← hbuf]
        exact hw2.2

theorem c5_nil_iff_no_match_witness :
    (([⟨"", [tokA]⟩] : List Capture) = [] ↔
      ∃ s1, mMatch 5 ctxEmpty (.keyword "a") ⟨[tokA], 0, [], []⟩ = some (false, s1))
    ∧ (([⟨"", [tokA]⟩] : List Capture) ≠ [] →
      ∃ s1, mMatch 5 ctxEmpty (.keyword "a") ⟨[tokA], 0, [], []⟩ = some (true, s1)
        ∧ ([⟨"", [tokA]⟩] : List Capture) = s1.captures ++ [⟨"", s1.result⟩]
        ∧ s1.result = [tokA].take s1.offset ∧ s1.offset ≤ [tokA].length) :=
  c5_nil_iff_no_match 5 ctxEmpty (.keyword "a") [tokA] [⟨"", [tokA]⟩] (by decide)

/-- C2 counter-evidence: the context maps the property name `x` to a grammar
that matches the input (first conjunct), the reference is resolvable, yet
matching `<'x'>` against that very input fails and discards the capture —
`matchPropertyType` appends the capture and then falls through to
`return false`, so a property-type reference can never match. -/
theorem c2_propertyType_never_matches :
    mMatch 5 ctxProp (.keyword "a") ⟨[tokA], 0, [], []⟩ = some (true, ⟨[tokA], 1, [tokA], []⟩)
  ∧ mMatch 5 ctxProp (.propertyType "x") ⟨[tokA], 0, [], []⟩ = some (false, ⟨[tokA], 0, [], []⟩)
  ∧ Match 5 ctxProp (.propertyType "x") [tokA] = some [] := by
  refine ⟨by decide, by decide, by decide⟩

/-- C4 counter-evidence: `lexIdentOrNumberOrToken` reads past the buffered
`-` with `readRune` instead of consuming it, so `-5` lexes as the identifier
token `5-` (not the number `-5`), `-abc` as the identifier `a-bc` (not
`-abc`), and a lone `-` is an end-of-input error rather than a token. -/
theorem c4_minus_lexes_scrambled :
    lexNext ⟨['-', '5'], none, false⟩ = (.ident, "5-", ⟨[], some '\x00', true⟩, none)
  ∧ lexNext ⟨['-', 'a', 'b', 'c'], none, false⟩ = (.ident, "a-bc", ⟨[], some '\x00', true⟩, none)
  ∧ lexNext ⟨['-'], none, false⟩ = (.char '\x00', "", ⟨[], some '-', false⟩, some .eof) := by
  refine ⟨by decide, by decide, by decide⟩

/-- C6: for `Repeat{min 2, max 4}` over the keyword `a`, one repetition
fails, two to four succeed, and on five available repetitions the matcher
consumes exactly four tokens (a fifth repetition is never consumed); with
`commas` set, a missing separating comma fails the match and a present one is
required and consumed. -/
theorem c6_repeat_boundaries :
    Match 50 ctxEmpty rep24 (List.replicate 1 tokA) = some []
  ∧ Match 50 ctxEmpty rep24 (List.replicate 2 tokA) = some [⟨"", List.replicate 2 tokA⟩]
  ∧ Match 50 ctxEmpty rep24 (List.replicate 3 tokA) = some [⟨"", List.replicate 3 tokA⟩]
  ∧ Match 50 ctxEmpty rep24 (List.replicate 4 tokA) = some [⟨"", List.replicate 4 tokA⟩]
  ∧ mMatch 50 ctxEmpty rep24 ⟨List.replicate 5 tokA, 0, [], []⟩
      = some (true, ⟨List.replicate 5 tokA, 4, List.replicate 4 tokA, []⟩)
  ∧ Match 50 ctxEmpty rep24c [tokA, tokA] = some []
  ∧ Match 50 ctxEmpty rep24c [tokA, tokComma, tokA] = some [⟨"", [tokA, tokComma, tokA]⟩] := by
  refine ⟨by decide, by decide, by decide, by decide, by decide, by decide, by decide⟩

/-- C7: for the grammar `a && b && c`, every permutation of the three valid
values matches successfully (and the whole-match capture spans the input in
its given order). -/
theorem c7_allOf_commutative (vs : List Token) (h : vs.Perm permBase) :
    Match 50 ctxEmpty abcAllOf vs = some [⟨"", vs⟩] := by
  have h3 : vs.length = 3 := by simpa [permBase] using h.length_eq
  obtain ⟨x, y, z, rfl⟩ := List.length_eq_three.mp h3
  have hx : x ∈ permBase := h.subset (by simp)
  have hy : y ∈ permBase := h.subset (by simp)
  have hz : z ∈ permBase := h.subset (by simp)
  simp only [permBase, List.mem_cons, List.not_mem_nil, or_false] at hx hy hz
  rcases hx with rfl | rfl | rfl <;> rcases hy with rfl | rfl | rfl <;>
    rcases hz with rfl | rfl | rfl <;>
    first
      | exact absurd h (by decide)
      | decide

theorem c7_allOf_commutative_witness :
    Match 50 ctxEmpty abcAllOf [tokB, tokA, tokC] = some [⟨"", [tokB, tokA, tokC]⟩] :=
  c7_allOf_commutative [tokB, tokA, tokC] (by decide)

/-- C9: matching does not require stream exhaustion — `<integer>` against the
two-token stream `3 foo` succeeds, consuming and capturing only the number
token and leaving the rest of the stream unread (offset 1 of 2). -/
theorem c9_prefix_match_succeeds :
    mMatch 50 ctxEmpty (.basicType ⟨"integer", none⟩) ⟨[tokN3, tokFoo], 0, [], []⟩
      = some (true, ⟨[tokN3, tokFoo], 1, [tokN3], []⟩)
  ∧ Match 50 ctxEmpty (.basicType ⟨"integer", none⟩) [tokN3, tokFoo] = some [⟨"", [tokN3]⟩] := by
  refine ⟨by decide, by decide⟩

/-- C8: in `<min-x>,? <min-y>` the bare comma between terms is parsed as a
`Literal` of the character of the following notation token (`?`), wrapped by
that token's own multiplier — not as `Literal(",")`; consequently a value
stream carrying an actual comma at that position fails to match while the
same values without the comma match. -/
theorem c8_comma_becomes_following_literal :
    ParseGrammar 100 "<min-x>,? <min-y>".toList = .ok c8Term
  ∧ Match 50 ctxMinXY c8Term [tokN0, tokComma, tokN0] = some []
  ∧ Match 50 ctxMinXY c8Term [tokN0, tokN0]
      = some [⟨"min-x", [tokN0]⟩, ⟨"min-y", [tokN0]⟩, ⟨"", [tokN0, tokN0]⟩] := by
  refine ⟨rfl, by decide, by decide⟩

/-- C10: `<custom-ident>#` parses to `Repeat{1, maxInt64, commas}` and, when
the repetition count has reached `min`, a separating comma consumed before a
failing operand stays consumed: matching against `a ,` succeeds and the comma
token appears in the final anonymous whole-match capture. -/
theorem c10_consumed_comma_survives :
    ParseGrammar 100 "<custom-ident>#".toList = .ok c10Term
  ∧ Match 50 ctxEmpty c10Term [tokA, tokComma] = some [⟨"", [tokA, tokComma]⟩] := by
  refine ⟨rfl, by decide⟩

/-! ### NUL-freedom of the notation lexer -/

theorem nlChomp_good {s : NLexer} (hg : NLGood s) : NLGood (nlChomp s).2 :=
  ⟨hg.1, fun h => Option.noConfusion h⟩

theorem takeWhileL_good {p : Char → Bool} {err : Bool} {l : List Char}
    (hl : '\x00' ∉ l) : NLGood (takeWhileL p err l).2 := by
  induction l with
  | nil => exact ⟨List.not_mem_nil _, fun _ => rfl⟩
  | cons c rest ihl =>
    have hc : c ≠ '\x00' := fun hx => hl (hx ▸ List.mem_cons_self c rest)
    have hrest : '\x00' ∉ rest := fun hx => hl (List.mem_cons_of_mem c hx)
    simp only [takeWhileL]
    by_cases hp : p c
    · rw [if_pos hp]
      rcases hE : takeWhileL p err rest with ⟨v1, s1⟩
      have := ihl hrest
      rw [hE] at this
      simpa [hE] using this
    · rw [if_neg hp]
      exact ⟨hrest, fun hb => absurd (Option.some.inj hb) hc⟩

theorem takeWhileBuf_good {p : Char → Bool} {s : NLexer} (hg : NLGood s) :
    NLGood (takeWhileBuf p s).2 := by
  obtain ⟨rest, buf, err⟩ := s
  cases buf with
  | none => exact takeWhileL_good hg.1
  | some c =>
    simp only [takeWhileBuf]
    by_cases hp : p c
    · rw [if_pos hp]
      rcases hE : takeWhileL p err rest with ⟨v1, s1⟩
      have := @takeWhileL_good p err _ hg.1
      rw [hE] at this
      simpa [hE] using this
    · rw [if_neg hp]
      exact hg

theorem nlPeek_good {s : NLexer} (hg : NLGood s) :
    NLGood (nlPeek s).2 ∧ ((nlPeek s).1 = '\x00' → (nlPeek s).2.err = true) := by
  obtain ⟨rest, buf, err⟩ := s
  cases buf with
  | some c =>
    refine ⟨hg, fun hc => hg.2 ?_⟩
    simp only [nlPeek] at hc
    rw [hc]
  | none =>
    cases rest with
    | nil => exact ⟨⟨List.not_mem_nil _, fun _ => rfl⟩, fun _ => rfl⟩
    | cons c r =>
      have hc : c ≠ '\x00' := fun hx => hg.1 (hx ▸ List.mem_cons_self c r)
      have hr : '\x00' ∉ r := fun hx => hg.1 (List.mem_cons_of_mem c hx)
      exact ⟨⟨hr, fun hb => absurd (Option.some.inj hb) hc⟩, fun hx => absurd hx hc⟩

theorem lexIdent_good {first : Option Char} {s : NLexer} (hg : NLGood s) :
    GoodRes (lexIdent first s) := by
  unfold lexIdent
  dsimp only
  rcases hE : takeWhileBuf startsIdent s with ⟨v, s1⟩
  have hg1 : NLGood s1 := by
    have := @takeWhileBuf_good startsIdent _ hg
    rw [hE] at this
    exact this
  dsimp only
  exact ⟨hg1, fun hx => GTok.noConfusion hx⟩

theorem lexNumberExp_good {acc : List Char} {e : Char} {s0 : NLexer} (hg : NLGood s0) :
    GoodRes (lexNumberExp acc e s0) := by
  unfold lexNumberExp
  dsimp only
  rcases hP1 : nlPeek (nlChomp s0).2 with ⟨c1, s2⟩
  have hg2 : NLGood s2 := by
    have := (nlPeek_good (nlChomp_good hg)).1
    rw [hP1] at this
    exact this
  dsimp only
  by_cases hs : c1 = '-' ∨ c1 = '+'
  · rw [if_pos hs]
    dsimp only
    rcases hP2 : nlPeek (nlChomp s2).2 with ⟨c5, s5⟩
    have hg5 : NLGood s5 := by
      have := (nlPeek_good (nlChomp_good hg2)).1
      rw [hP2] at this
      exact this
    dsimp only
    by_cases hd : ¬ isDigit c5
    · rw [if_pos hd]
      exact ⟨hg5, fun _ hx => Option.noConfusion hx⟩
    · rw [if_neg hd]
      try dsimp only
      rcases hT : takeWhileBuf isDigit s5 with ⟨d3, s6⟩
      have hg6 : NLGood s6 := by
        have := @takeWhileBuf_good isDigit _ hg5
        rw [hT] at this
        exact this
      dsimp only
      exact ⟨hg6, fun hx => GTok.noConfusion hx⟩
  · rw [if_neg hs]
    dsimp only
    by_cases hd : ¬ isDigit c1
    · rw [if_pos hd]
      exact ⟨hg2, fun _ hx => Option.noConfusion hx⟩
    · rw [if_neg hd]
      try dsimp only
      rcases hT : takeWhileBuf isDigit s2 with ⟨d3, s6⟩
      have hg6 : NLGood s6 := by
        have := @takeWhileBuf_good isDigit _ hg2
        rw [hT] at this
        exact this
      dsimp only
      exact ⟨hg6, fun hx => GTok.noConfusion hx⟩

theorem lexNumber_good {first : Option Char} {s : NLexer} (hg : NLGood s) :
    GoodRes (lexNumber first s) := by
  unfold lexNumber
  dsimp only
  rcases hP1 : nlPeek s with ⟨c1, s1⟩
  have hg1 : NLGood s1 := by
    have := (nlPeek_good hg).1
    rw [hP1] at this
    exact this
  dsimp only
  by_cases hc1 : c1 = '∞'
  · rw [if_pos hc1]
    exact ⟨nlChomp_good hg1, fun hx => GTok.noConfusion hx⟩
  · rw [if_neg hc1]
    try dsimp only
    rcases hT1 : takeWhileBuf isDigit s1 with ⟨d1, s2⟩
    have hg2 : NLGood s2 := by
      have := @takeWhileBuf_good isDigit _ hg1
      rw [hT1] at this
      exact this
    dsimp only
    rcases hP2 : nlPeek s2 with ⟨c2, s3⟩
    have hg3 : NLGood s3 := by
      have := (nlPeek_good hg2).1
      rw [hP2] at this
      exact this
    dsimp only
    by_cases hc2 : c2 = '.'
    · rw [if_pos hc2]
      dsimp only
      rcases hT2 : takeWhileBuf isDigit (nlChomp s3).2 with ⟨d2, s4⟩
      have hg4 : NLGood s4 := by
        have := @takeWhileBuf_good isDigit _ (nlChomp_good hg3)
        rw [hT2] at this
        exact this
      dsimp only
      rcases hP3 : nlPeek s4 with ⟨c3, s5⟩
      have hg5 : NLGood s5 := by
        have := (nlPeek_good hg4).1
        rw [hP3] at this
        exact this
      dsimp only
      by_cases he : c3 ≠ 'e' ∧ c3 ≠ 'E'
      · rw [if_pos he]
        exact ⟨hg5, fun hx => GTok.noConfusion hx⟩
      · rw [if_neg he]
        exact lexNumberExp_good hg5
    · rw [if_neg hc2]
      dsimp only
      by_cases he : c2 ≠ 'e' ∧ c2 ≠ 'E'
      · rw [if_pos he]
        exact ⟨hg3, fun hx => GTok.noConfusion hx⟩
      · rw [if_neg he]
        exact lexNumberExp_good hg3

theorem lexLiteral_good {s : NLexer} (hg : NLGood s) : GoodRes (lexLiteral s) := by
  unfold lexLiteral
  dsimp only
  rcases hE : takeWhileBuf (fun c => c != '"' && c != '\x00') (nlChomp s).2 with ⟨v, s1⟩
  have hg1 : NLGood s1 := by
    have := @takeWhileBuf_good (fun c => c != '"' && c != '\x00') _ (nlChomp_good hg)
    rw [hE] at this
    exact this
  dsimp only
  exact ⟨nlChomp_good hg1, fun hx => GTok.noConfusion hx⟩

theorem lexIdentOrNumberOrToken_good {s : NLexer} (hg : NLGood s) :
    GoodRes (lexIdentOrNumberOrToken s) := by
  unfold lexIdentOrNumberOrToken
  rcases s with ⟨rest, buf, err⟩
  cases rest with
  | nil => exact ⟨hg, fun _ hx => Option.noConfusion hx⟩
  | cons first rest1 =>
    have hf : first ≠ '\x00' := fun hx => hg.1 (hx ▸ List.mem_cons_self first rest1)
    have hr : '\x00' ∉ rest1 := fun hx => hg.1 (List.mem_cons_of_mem first hx)
    have hg1 : NLGood ⟨rest1, buf, err⟩ := ⟨hr, hg.2⟩
    try dsimp only
    rcases hP : nlPeek ⟨rest1, buf, err⟩ with ⟨next, s2⟩
    have hg2 : NLGood s2 := by
      have := (nlPeek_good hg1).1
      rw [hP] at this
      exact this
    dsimp only
    by_cases hd : ('0' ≤ next ∧ next ≤ '9') ∨ next = '∞'
    · rw [if_pos hd]
      exact lexNumber_good hg2
    · rw [if_neg hd]
      by_cases hi : startsIdent next
      · rw [if_pos hi]
        exact lexIdent_good hg2
      · rw [if_neg hi]
        exact ⟨hg2, fun hx => absurd (GTok.char.inj hx) hf⟩

theorem lexNumberOrPlus_good {s : NLexer} {c : Char} (hb : s.buf = some c)
    (hc : c ≠ '\x00') (hg : NLGood s) : GoodRes (lexNumberOrPlus s) := by
  unfold lexNumberOrPlus
  simp only [nlChomp, hb, Option.getD_some]
  try dsimp only
  rcases hP : nlPeek { s with buf := none } with ⟨next, s2⟩
  have hg2 : NLGood s2 := by
    have := (@nlPeek_good { s with buf := none } ⟨hg.1, fun h => Option.noConfusion h⟩).1
    rw [hP] at this
    exact this
  dsimp only
  by_cases hd : ('0' ≤ next ∧ next ≤ '9') ∨ next = '∞'
  · rw [if_pos hd]
    exact lexNumber_good hg2
  · rw [if_neg hd]
    exact ⟨hg2, fun hx => absurd (GTok.char.inj hx) hc⟩

theorem lexOneOrAnyOf_good {s : NLexer} (hg : NLGood s) : GoodRes (lexOneOrAnyOf s) := by
  unfold lexOneOrAnyOf
  dsimp only
  rcases hP : nlPeek (nlChomp s).2 with ⟨next, s2⟩
  have hg2 : NLGood s2 := by
    have := (nlPeek_good (nlChomp_good hg)).1
    rw [hP] at this
    exact this
  dsimp only
  by_cases hn : next = '|'
  · rw [if_pos hn]
    exact ⟨nlChomp_good hg2, fun hx => GTok.noConfusion hx⟩
  · rw [if_neg hn]
    exact ⟨hg2, fun hx => absurd (GTok.char.inj hx) (by decide)⟩

theorem lexAllOfOrRune_good {s : NLexer} (hg : NLGood s) : GoodRes (lexAllOfOrRune s) := by
  unfold lexAllOfOrRune
  dsimp only
  rcases hP : nlPeek (nlChomp s).2 with ⟨next, s2⟩
  have hg2 : NLGood s2 := by
    have := (nlPeek_good (nlChomp_good hg)).1
    rw [hP] at this
    exact this
  dsimp only
  by_cases hn : next = '&'
  · rw [if_pos hn]
    exact ⟨nlChomp_good hg2, fun hx => GTok.noConfusion hx⟩
  · rw [if_neg hn]
    exact ⟨hg2, fun hx => absurd (GTok.char.inj hx) (by decide)⟩

theorem lexDispatch_good {c : Char} {rest : List Char} {err : Bool}
    (hrest : '\x00' ∉ rest) (hcz : c = '\x00' → err = true) :
    GoodRes (lexDispatch c rest err) := by
  unfold lexDispatch
  by_cases h0 : c = '\x00'
  · rw [if_pos h0]
    have he : err = true := hcz h0
    subst he
    exact ⟨⟨hrest, fun _ => rfl⟩, fun _ hx => Option.noConfusion hx⟩
  · rw [if_neg h0]
    have hgs : NLGood ⟨rest, some c, err⟩ := ⟨hrest, fun hb => absurd (Option.some.inj hb) h0⟩
    by_cases h1 : c = '-'
    · rw [if_pos h1]
      exact lexIdentOrNumberOrToken_good hgs
    · rw [if_neg h1]
      by_cases h2 : c = '+'
      · rw [if_pos h2]
        exact @lexNumberOrPlus_good ⟨rest, some c, err⟩ c rfl h0 hgs
      · rw [if_neg h2]
        by_cases h3 : c = '|'
        · rw [if_pos h3]
          exact lexOneOrAnyOf_good hgs
        · rw [if_neg h3]
          by_cases h4 : c = '&'
          · rw [if_pos h4]
            exact lexAllOfOrRune_good hgs
          · rw [if_neg h4]
            by_cases h5 :
                (['<', '>', '[', ']', '\x7b', '\x7d', '\'', ',', '*', '?', '#', '!'].contains c)
                  = true
            · rw [if_pos h5]
              exact ⟨⟨hrest, fun hb => Option.noConfusion hb⟩,
                fun hx => absurd (GTok.char.inj hx) h0⟩
            · rw [if_neg h5]
              by_cases h6 : startsIdent c = true
              · rw [if_pos h6]
                exact lexIdent_good hgs
              · rw [if_neg h6]
                by_cases h7 : c = '∞' ∨ isDigit c = true
                · rw [if_pos h7]
                  exact lexNumber_good hgs
                · rw [if_neg h7]
                  by_cases h8 : c = '"'
                  · rw [if_pos h8]
                    exact lexLiteral_good hgs
                  · rw [if_neg h8]
                    exact ⟨⟨hrest, fun hb => Option.noConfusion hb⟩,
                      fun hx => GTok.noConfusion hx⟩

theorem lexNextW_good : ∀ (rest : List Char) (c : Char) (err : Bool),
    '\x00' ∉ rest → (c = '\x00' → err = true) → GoodRes (lexNextW c rest err) := by
  intro rest
  induction rest with
  | nil =>
    intro c err hrest hcz
    simp only [lexNextW]
    by_cases hs : lexSkips c
    · rw [if_pos hs]
      exact ⟨⟨List.not_mem_nil _, fun _ => rfl⟩, fun _ hx => Option.noConfusion hx⟩
    · rw [if_neg hs]
      exact lexDispatch_good hrest hcz
  | cons c2 rest2 ihl =>
    intro c err hrest hcz
    have hc2 : c2 ≠ '\x00' := fun hx => hrest (hx ▸ List.mem_cons_self c2 rest2)
    have hr2 : '\x00' ∉ rest2 := fun hx => hrest (List.mem_cons_of_mem c2 hx)
    simp only [lexNextW]
    by_cases hs : lexSkips c
    · rw [if_pos hs]
      exact ihl c2 err hr2 (fun hx => absurd hx hc2)
    · rw [if_neg hs]
      exact lexDispatch_good hrest hcz

theorem lexNext_good {s : NLexer} (hg : NLGood s) : GoodRes (lexNext s) := by
  unfold lexNext
  rcases s with ⟨rest, buf, err⟩
  cases buf with
  | some c =>
    exact lexNextW_good rest c err hg.1 (fun hx => hg.2 (by rw [hx]))
  | none =>
    cases rest with
    | nil => exact ⟨⟨List.not_mem_nil _, fun _ => rfl⟩, fun _ hx => Option.noConfusion hx⟩
    | cons c r =>
      have hc : c ≠ '\x00' := fun hx => hg.1 (hx ▸ List.mem_cons_self c r)
      have hr : '\x00' ∉ r := fun hx => hg.1 (List.mem_cons_of_mem c hx)
      exact lexNextW_good r c err hr (fun hx => absurd hx hc)

/-- A strict lexing site that succeeds leaves a NUL-free state and a current
token different from the zero token. -/
theorem plexStrict_good {s s1 : PState} (hg : PGood s) (h : plexStrict s = .ok s1) :
    PGood s1 ∧ s1.token ≠ GTok.char '\x00' := by
  unfold plexStrict plex at h
  rcases hE : lexNext s.lx with ⟨t, v, lx1, e⟩
  rw [hE] at h
  have hgr := lexNext_good hg
  rw [hE] at hgr
  cases e with
  | some e1 => exact Except.noConfusion h
  | none =>
    simp only [Except.ok.injEq] at h
    subst h
    exact ⟨hgr.1, fun hx => hgr.2 hx rfl⟩

/-- A tolerant lexing site that succeeds leaves a NUL-free state. -/
theorem plexTol_good {s s1 : PState} (hg : PGood s) (h : plexTol s = .ok s1) :
    PGood s1 := by
  unfold plexTol plex at h
  rcases hE : lexNext s.lx with ⟨t, v, lx1, e⟩
  rw [hE] at h
  have hgr := lexNext_good hg
  rw [hE] at hgr
  cases e with
  | none =>
    simp only [Except.ok.injEq] at h
    subst h
    exact hgr.1
  | some e1 =>
    cases e1 with
    | invalidNumber => exact Except.noConfusion h
    | eof =>
      simp only [Except.ok.injEq] at h
      subst h
      exact hgr.1

/-! ### The combinator-arity invariant of the parser -/

theorem parseRange_good {s : PState} {r : NumRange} {s1 : PState} (hg : PGood s)
    (h : parseRange s = .ok (r, s1)) : PGood s1 := by
  unfold parseRange at h
  simp only [bind, Except.bind] at h
  split at h
  · exact Except.noConfusion h
  · rename_i s2 heq
    have hg2 := (plexStrict_good hg heq).1
    split at h
    · exact Except.noConfusion h
    · split at h
      · exact Except.noConfusion h
      · rename_i mn hmn
        split at h
        · exact Except.noConfusion h
        · rename_i s3 heq3
          have hg3 := (plexStrict_good hg2 heq3).1
          split at h
          · exact Except.noConfusion h
          · split at h
            · exact Except.noConfusion h
            · rename_i s4 heq4
              have hg4 := (plexStrict_good hg3 heq4).1
              split at h
              · exact Except.noConfusion h
              · split at h
                · exact Except.noConfusion h
                · rename_i mx hmx
                  split at h
                  · exact Except.noConfusion h
                  · rename_i s5 heq5
                    have hg5 := (plexStrict_good hg4 heq5).1
                    split at h
                    · exact Except.noConfusion h
                    · split at h
                      · exact Except.noConfusion h
                      · rename_i s6 heq6
                        have hg6 := (plexStrict_good hg5 heq6).1
                        simp only [Except.ok.injEq, Prod.mk.injEq] at h
                        obtain ⟨hr, hs⟩ := h
                        subst hs
                        exact hg6

theorem parseType_good {s : PState} {t : Term} {s1 : PState} (hg : PGood s)
    (h : parseType s = .ok (t, s1)) : CombOk t ∧ PGood s1 := by
  unfold parseType at h
  simp only [bind, Except.bind, pure, Except.pure] at h
  split at h
  · exact Except.noConfusion h
  · rename_i s2 heq
    have hg2 := (plexStrict_good hg heq).1
    split at h
    · -- ident arm
      split at h
      · exact Except.noConfusion h
      · rename_i s3 heq3
        have hg3 := (plexStrict_good hg2 heq3).1
        -- the optional range
        split at h
        · -- range present
          split at h
          · exact Except.noConfusion h
          · rename_i v hv
            obtain ⟨rng, s4⟩ := v
            have hg4 : PGood s4 := parseRange_good hg3 hv
            dsimp only at h
            split at h
            · exact Except.noConfusion h
            · split at h
              · exact Except.noConfusion h
              · rename_i s5 heq5
                have hg5 := plexTol_good hg4 heq5
                split at h <;>
                · simp only [Except.ok.injEq, Prod.mk.injEq] at h
                  obtain ⟨ht, hs⟩ := h
                  subst ht
                  subst hs
                  exact ⟨by constructor, hg5⟩
        · -- no range
          split at h
          · exact Except.noConfusion h
          · split at h
            · exact Except.noConfusion h
            · rename_i s5 heq5
              have hg5 := plexTol_good hg3 heq5
              split at h <;>
              · simp only [Except.ok.injEq, Prod.mk.injEq] at h
                obtain ⟨ht, hs⟩ := h
                subst ht
                subst hs
                exact ⟨by constructor, hg5⟩
    · -- quote arm
      split at h
      · exact Except.noConfusion h
      · rename_i s3 heq3
        have hg3 := (plexStrict_good hg2 heq3).1
        split at h
        · exact Except.noConfusion h
        · split at h
          · exact Except.noConfusion h
          · rename_i s4 heq4
            have hg4 := (plexStrict_good hg3 heq4).1
            split at h
            · exact Except.noConfusion h
            · split at h
              · exact Except.noConfusion h
              · rename_i s5 heq5
                have hg5 := (plexStrict_good hg4 heq5).1
                split at h
                · exact Except.noConfusion h
                · split at h
                  · exact Except.noConfusion h
                  · rename_i s6 heq6
                    have hg6 := plexTol_good hg5 heq6
                    simp only [Except.ok.injEq, Prod.mk.injEq] at h
                    obtain ⟨ht, hs⟩ := h
                    subst ht
                    subst hs
                    exact ⟨by constructor, hg6⟩
    · exact Except.noConfusion h

theorem parseRepeatTail_good {op : Term} {commas : Bool} {s : PState} {op? : Option Term}
    {s1 : PState} (hop : CombOk op) (hg : PGood s)
    (h : parseRepeatTail op commas s = .ok (op?, s1)) :
    (∀ u, op? = some u → CombOk u) ∧ PGood s1 ∧ op? ≠ none := by
  unfold parseRepeatTail at h
  simp only [bind, Except.bind, pure, Except.pure] at h
  split at h
  · exact Except.noConfusion h
  · rename_i s2 heq
    have hg2 := (plexStrict_good hg heq).1
    split at h
    · exact Except.noConfusion h
    · split at h
      · exact Except.noConfusion h
      · rename_i mn hmn
        split at h
        · exact Except.noConfusion h
        · rename_i s3 heq3
          have hg3 := (plexStrict_good hg2 heq3).1
          -- the optional `, max` part produces (mx, s)
          split at h
          · -- comma present
            split at h
            · exact Except.noConfusion h
            · rename_i s4 heq4
              have hg4 := (plexStrict_good hg3 heq4).1
              split at h
              · -- a number follows
                split at h
                · exact Except.noConfusion h
                · rename_i mx hmx
                  split at h
                  · exact Except.noConfusion h
                  · rename_i s5 heq5
                    have hg5 := (plexStrict_good hg4 heq5).1
                    split at h
                    · exact Except.noConfusion h
                    · split at h
                      · exact Except.noConfusion h
                      · rename_i s6 heq6
                        have hg6 := plexTol_good hg5 heq6
                        simp only [Except.ok.injEq, Prod.mk.injEq] at h
                        obtain ⟨ht, hs⟩ := h
                        subst ht
                        subst hs
                        exact ⟨fun u hu => by
                          injection hu with hu
                          subst hu
                          exact CombOk.repeatTerm _ _ _ _ hop, hg6,
                          fun hx => Option.noConfusion hx⟩
              · -- no number: max is unbounded
                split at h
                · exact Except.noConfusion h
                · split at h
                  · exact Except.noConfusion h
                  · rename_i s6 heq6
                    have hg6 := plexTol_good hg4 heq6
                    simp only [Except.ok.injEq, Prod.mk.injEq] at h
                    obtain ⟨ht, hs⟩ := h
                    subst ht
                    subst hs
                    exact ⟨fun u hu => by
                      injection hu with hu
                      subst hu
                      exact CombOk.repeatTerm _ _ _ _ hop, hg6,
                      fun hx => Option.noConfusion hx⟩
          · -- no comma: max = min
            split at h
            · exact Except.noConfusion h
            · split at h
              · exact Except.noConfusion h
              · rename_i s6 heq6
                have hg6 := plexTol_good hg3 heq6
                simp only [Except.ok.injEq, Prod.mk.injEq] at h
                obtain ⟨ht, hs⟩ := h
                subst ht
                subst hs
                exact ⟨fun u hu => by
                  injection hu with hu
                  subst hu
                  exact CombOk.repeatTerm _ _ _ _ hop, hg6,
                  fun hx => Option.noConfusion hx⟩

end Svg2Css
namespace Svg2Css

set_option maxHeartbeats 1000000

theorem parser_inv (f : Nat) :
    (∀ s t s1, parseOneOf f s = .ok (t, s1) → PGood s → s.token ≠ GTok.char '\x00' →
        CombOk t ∧ PGood s1)
  ∧ (∀ s ops s1, parseOneOfOps f s = .ok (ops, s1) → PGood s → s.token ≠ GTok.char '\x00' →
        ops ≠ [] ∧ (∀ t ∈ ops, CombOk t) ∧ PGood s1)
  ∧ (∀ s t s1, parseAnyOf f s = .ok (t, s1) → PGood s → s.token ≠ GTok.char '\x00' →
        CombOk t ∧ PGood s1)
  ∧ (∀ s ops s1, parseAnyOfOps f s = .ok (ops, s1) → PGood s → s.token ≠ GTok.char '\x00' →
        ops ≠ [] ∧ (∀ t ∈ ops, CombOk t) ∧ PGood s1)
  ∧ (∀ s t s1, parseAllOf f s = .ok (t, s1) → PGood s → s.token ≠ GTok.char '\x00' →
        CombOk t ∧ PGood s1)
  ∧ (∀ s ops s1, parseAllOfOps f s = .ok (ops, s1) → PGood s → s.token ≠ GTok.char '\x00' →
        ops ≠ [] ∧ (∀ t ∈ ops, CombOk t) ∧ PGood s1)
  ∧ (∀ s t s1, parseSeq f s = .ok (t, s1) → PGood s → s.token ≠ GTok.char '\x00' →
        CombOk t ∧ PGood s1)
  ∧ (∀ s ops s1, parseSeqOps f s = .ok (ops, s1) → PGood s →
        (∀ t ∈ ops, CombOk t) ∧ PGood s1 ∧ (ops = [] → s.token = GTok.char '\x00'))
  ∧ (∀ s op? s1, parseMultiplier f s = .ok (op?, s1) → PGood s →
        (∀ t, op? = some t → CombOk t) ∧ PGood s1 ∧ (op? = none → s.token = GTok.char '\x00'))
  ∧ (∀ s op? s1, parseMultipliable f s = .ok (op?, s1) → PGood s →
        (∀ t, op? = some t → CombOk t) ∧ PGood s1 ∧ (op? = none → s.token = GTok.char '\x00'))
  ∧ (∀ s t s1, parseGroup f s = .ok (t, s1) → PGood s → CombOk t ∧ PGood s1) := by
  induction f with
  | zero =>
    refine ⟨?_, ?_, ?_, ?_, ?_, ?_, ?_, ?_, ?_, ?_, ?_⟩ <;>
      intros <;>
      simp_all only [parseOneOf, parseOneOfOps, parseAnyOf, parseAnyOfOps, parseAllOf,
        parseAllOfOps, parseSeq, parseSeqOps, parseMultiplier, parseMultipliable, parseGroup,
        reduceCtorEq]
  | succ f ih =>
    obtain ⟨ihOneOf, ihOneOps, ihAnyOf, ihAnyOps, ihAllOf, ihAllOps, ihSeq, ihSeqOps,
      ihMult, ihMultb, ihGroup⟩ := ih
    refine ⟨?_, ?_, ?_, ?_, ?_, ?_, ?_, ?_, ?_, ?_, ?_⟩
    -- parseOneOf
    · intro s t s1 h hg htok
      simp only [parseOneOf, bind, Except.bind] at h
      split at h
      · exact Except.noConfusion h
      · rename_i v hv
        obtain ⟨ops, s2⟩ := v
        have hx := ihOneOps s ops s2 hv hg htok
        dsimp only at h
        split at h
        · rename_i t0
          simp only [Except.ok.injEq, Prod.mk.injEq] at h
          obtain ⟨ht, hs⟩ := h
          subst ht
          subst hs
          exact ⟨hx.2.1 t0 (by simp), hx.2.2⟩
        · rename_i hno
          simp only [Except.ok.injEq, Prod.mk.injEq] at h
          obtain ⟨ht, hs⟩ := h
          subst ht
          subst hs
          refine ⟨CombOk.oneOf ops ?_ hx.2.1, hx.2.2⟩
          rcases ops with _ | ⟨a, _ | ⟨b, rest⟩⟩
          · exact absurd rfl hx.1
          · exact absurd rfl (hno a)
          · simp
    · intro s ops s1 h hg htok
      simp only [parseOneOfOps, bind, Except.bind] at h
      split at h
      · exact Except.noConfusion h
      · rename_i v hv
        obtain ⟨op, s2⟩ := v
        have hx := ihAnyOf s op s2 hv hg htok
        dsimp only at h
        split at h
        · split at h
          · exact Except.noConfusion h
          · rename_i s3 heq3
            have hg3 := plexStrict_good hx.2 heq3
            split at h
            · exact Except.noConfusion h
            · rename_i v2 hv2
              obtain ⟨ops2, s4⟩ := v2
              have hy := ihOneOps s3 ops2 s4 hv2 hg3.1 hg3.2
              dsimp only at h
              simp only [Except.ok.injEq, Prod.mk.injEq] at h
              obtain ⟨ho, hs⟩ := h
              subst ho
              subst hs
              refine ⟨List.cons_ne_nil _ _, ?_, hy.2.2⟩
              intro u hu
              rcases List.mem_cons.mp hu with rfl | hu2
              · exact hx.1
              · exact hy.2.1 u hu2
        · simp only [Except.ok.injEq, Prod.mk.injEq] at h
          obtain ⟨ho, hs⟩ := h
          subst ho
          subst hs
          refine ⟨List.cons_ne_nil _ _, ?_, hx.2⟩
          intro u hu
          have := List.mem_singleton.mp hu
          subst this
          exact hx.1
    · intro s t s1 h hg htok
      simp only [parseAnyOf, bind, Except.bind] at h
      split at h
      · exact Except.noConfusion h
      · rename_i v hv
        obtain ⟨ops, s2⟩ := v
        have hx := ihAnyOps s ops s2 hv hg htok
        dsimp only at h
        split at h
        · rename_i t0
          simp only [Except.ok.injEq, Prod.mk.injEq] at h
          obtain ⟨ht, hs⟩ := h
          subst ht
          subst hs
          exact ⟨hx.2.1 t0 (by simp), hx.2.2⟩
        · rename_i hno
          simp only [Except.ok.injEq, Prod.mk.injEq] at h
          obtain ⟨ht, hs⟩ := h
          subst ht
          subst hs
          refine ⟨CombOk.anyOf ops ?_ hx.2.1, hx.2.2⟩
          rcases ops with _ | ⟨a, _ | ⟨b, rest⟩⟩
          · exact absurd rfl hx.1
          · exact absurd rfl (hno a)
          · simp
    · intro s ops s1 h hg htok
      simp only [parseAnyOfOps, bind, Except.bind] at h
      split at h
      · exact Except.noConfusion h
      · rename_i v hv
        obtain ⟨op, s2⟩ := v
        have hx := ihAllOf s op s2 hv hg htok
        dsimp only at h
        split at h
        · split at h
          · exact Except.noConfusion h
          · rename_i s3 heq3
            have hg3 := plexStrict_good hx.2 heq3
            split at h
            · exact Except.noConfusion h
            · rename_i v2 hv2
              obtain ⟨ops2, s4⟩ := v2
              have hy := ihAnyOps s3 ops2 s4 hv2 hg3.1 hg3.2
              dsimp only at h
              simp only [Except.ok.injEq, Prod.mk.injEq] at h
              obtain ⟨ho, hs⟩ := h
              subst ho
              subst hs
              refine ⟨List.cons_ne_nil _ _, ?_, hy.2.2⟩
              intro u hu
              rcases List.mem_cons.mp hu with rfl | hu2
              · exact hx.1
              · exact hy.2.1 u hu2
        · simp only [Except.ok.injEq, Prod.mk.injEq] at h
          obtain ⟨ho, hs⟩ := h
          subst ho
          subst hs
          refine ⟨List.cons_ne_nil _ _, ?_, hx.2⟩
          intro u hu
          have := List.mem_singleton.mp hu
          subst this
          exact hx.1
    · intro s t s1 h hg htok
      simp only [parseAllOf, bind, Except.bind] at h
      split at h
      · exact Except.noConfusion h
      · rename_i v hv
        obtain ⟨ops, s2⟩ := v
        have hx := ihAllOps s ops s2 hv hg htok
        dsimp only at h
        split at h
        · rename_i t0
          simp only [Except.ok.injEq, Prod.mk.injEq] at h
          obtain ⟨ht, hs⟩ := h
          subst ht
          subst hs
          exact ⟨hx.2.1 t0 (by simp), hx.2.2⟩
        · rename_i hno
          simp only [Except.ok.injEq, Prod.mk.injEq] at h
          obtain ⟨ht, hs⟩ := h
          subst ht
          subst hs
          refine ⟨CombOk.allOf ops ?_ hx.2.1, hx.2.2⟩
          rcases ops with _ | ⟨a, _ | ⟨b, rest⟩⟩
          · exact absurd rfl hx.1
          · exact absurd rfl (hno a)
          · simp
    · intro s ops s1 h hg htok
      simp only [parseAllOfOps, bind, Except.bind] at h
      split at h
      · exact Except.noConfusion h
      · rename_i v hv
        obtain ⟨op, s2⟩ := v
        have hx := ihSeq s op s2 hv hg htok
        dsimp only at h
        split at h
        · split at h
          · exact Except.noConfusion h
          · rename_i s3 heq3
            have hg3 := plexStrict_good hx.2 heq3
            split at h
            · exact Except.noConfusion h
            · rename_i v2 hv2
              obtain ⟨ops2, s4⟩ := v2
              have hy := ihAllOps s3 ops2 s4 hv2 hg3.1 hg3.2
              dsimp only at h
              simp only [Except.ok.injEq, Prod.mk.injEq] at h
              obtain ⟨ho, hs⟩ := h
              subst ho
              subst hs
              refine ⟨List.cons_ne_nil _ _, ?_, hy.2.2⟩
              intro u hu
              rcases List.mem_cons.mp hu with rfl | hu2
              · exact hx.1
              · exact hy.2.1 u hu2
        · simp only [Except.ok.injEq, Prod.mk.injEq] at h
          obtain ⟨ho, hs⟩ := h
          subst ho
          subst hs
          refine ⟨List.cons_ne_nil _ _, ?_, hx.2⟩
          intro u hu
          have := List.mem_singleton.mp hu
          subst this
          exact hx.1
    · intro s t s1 h hg htok
      simp only [parseSeq, bind, Except.bind, pure, Except.pure] at h
      split at h
      · split at h
        · exact Except.noConfusion h
        · rename_i s2 heq2
          have hg2 := plexStrict_good hg heq2
          split at h
          · exact Except.noConfusion h
          · split at h
            · exact Except.noConfusion h
            · rename_i s3 heq3
              have hg3 := plexStrict_good hg2.1 heq3
              try dsimp only at h
              split at h
              · exact Except.noConfusion h
              · rename_i v hv
                obtain ⟨ops, s4⟩ := v
                have hy := ihSeqOps s3 ops s4 hv hg3.1
                have hops : ops ≠ [] := fun hnil => absurd (hy.2.2 hnil) hg3.2
                dsimp only at h
                split at h
                · simp only [Except.ok.injEq, Prod.mk.injEq] at h
                  obtain ⟨ht, hs⟩ := h
                  subst ht
                  subst hs
                  exact ⟨hy.1 _ (by simp), hy.2.1⟩
                · rename_i ops1 opsb nmb hno
                  simp only [Except.ok.injEq, Prod.mk.injEq] at h
                  obtain ⟨ht, hs⟩ := h
                  subst ht
                  subst hs
                  refine ⟨CombOk.seq _ _ ?_ hy.1, hy.2.1⟩
                  rcases ops1 with _ | ⟨a, _ | ⟨b, rest⟩⟩
                  · exact absurd rfl hops
                  · exact Or.inr fun hname => hno a rfl hname
                  · exact Or.inl (by simp)
      · try dsimp only at h
        split at h
        · exact Except.noConfusion h
        · rename_i v hv
          obtain ⟨ops, s4⟩ := v
          have hy := ihSeqOps s ops s4 hv hg
          have hops : ops ≠ [] := fun hnil => absurd (hy.2.2 hnil) htok
          dsimp only at h
          split at h
          · simp only [Except.ok.injEq, Prod.mk.injEq] at h
            obtain ⟨ht, hs⟩ := h
            subst ht
            subst hs
            exact ⟨hy.1 _ (by simp), hy.2.1⟩
          · rename_i ops1 opsb nmb hno
            simp only [Except.ok.injEq, Prod.mk.injEq] at h
            obtain ⟨ht, hs⟩ := h
            subst ht
            subst hs
            refine ⟨CombOk.seq _ _ ?_ hy.1, hy.2.1⟩
            rcases ops1 with _ | ⟨a, _ | ⟨b, rest⟩⟩
            · exact absurd rfl hops
            · exact Or.inr fun hname => hno a rfl hname
            · exact Or.inl (by simp)
    · intro s ops s1 h hg
      simp only [parseSeqOps, bind, Except.bind] at h
      split at h
      · exact Except.noConfusion h
      · rename_i v hv
        obtain ⟨op?, s2⟩ := v
        have hx := ihMult s op? s2 hv hg
        dsimp only at h
        split at h
        · simp only [Except.ok.injEq, Prod.mk.injEq] at h
          obtain ⟨ho, hs⟩ := h
          subst ho
          subst hs
          exact ⟨fun u hu => absurd hu (List.not_mem_nil u), hx.2.1, fun _ => hx.2.2 rfl⟩
        · rename_i op
          split at h
          · simp only [Except.ok.injEq, Prod.mk.injEq] at h
            obtain ⟨ho, hs⟩ := h
            subst ho
            subst hs
            refine ⟨?_, hx.2.1, fun habs => List.noConfusion habs⟩
            intro u hu
            have := List.mem_singleton.mp hu
            subst this
            exact hx.1 u rfl
          · split at h
            · exact Except.noConfusion h
            · rename_i v2 hv2
              obtain ⟨ops2, s3⟩ := v2
              have hy := ihSeqOps s2 ops2 s3 hv2 hx.2.1
              dsimp only at h
              simp only [Except.ok.injEq, Prod.mk.injEq] at h
              obtain ⟨ho, hs⟩ := h
              subst ho
              subst hs
              refine ⟨?_, hy.2.1, fun habs => List.noConfusion habs⟩
              intro u hu
              rcases List.mem_cons.mp hu with rfl | hu2
              · exact hx.1 u rfl
              · exact hy.1 u hu2
    · intro s op? s1 h hg
      simp only [parseMultiplier, bind, Except.bind, pure, Except.pure] at h
      split at h
      · exact Except.noConfusion h
      · rename_i v hv
        obtain ⟨op0, s2⟩ := v
        have hx := ihMultb s op0 s2 hv hg
        dsimp only at h
        split at h
        · simp only [Except.ok.injEq, Prod.mk.injEq] at h
          obtain ⟨ho, hs⟩ := h
          subst ho
          subst hs
          exact ⟨fun u hu => Option.noConfusion hu, hx.2.1, fun _ => hx.2.2 rfl⟩
        · rename_i op
          have hcop : CombOk op := hx.1 op rfl
          split at h
          · split at h
            · exact Except.noConfusion h
            · rename_i s3 heq3
              have hg3 := plexTol_good hx.2.1 heq3
              simp only [Except.ok.injEq, Prod.mk.injEq] at h
              obtain ⟨ho, hs⟩ := h
              subst ho
              subst hs
              refine ⟨?_, hg3, fun habs => Option.noConfusion habs⟩
              intro u hu
              injection hu with hu
              subst hu
              exact CombOk.zeroOrMore _ hcop
          · split at h
            · exact Except.noConfusion h
            · rename_i s3 heq3
              have hg3 := plexTol_good hx.2.1 heq3
              simp only [Except.ok.injEq, Prod.mk.injEq] at h
              obtain ⟨ho, hs⟩ := h
              subst ho
              subst hs
              refine ⟨?_, hg3, fun habs => Option.noConfusion habs⟩
              intro u hu
              injection hu with hu
              subst hu
              exact CombOk.oneOrMore _ hcop
          · split at h
            · exact Except.noConfusion h
            · rename_i s3 heq3
              have hg3 := plexTol_good hx.2.1 heq3
              simp only [Except.ok.injEq, Prod.mk.injEq] at h
              obtain ⟨ho, hs⟩ := h
              subst ho
              subst hs
              refine ⟨?_, hg3, fun habs => Option.noConfusion habs⟩
              intro u hu
              injection hu with hu
              subst hu
              exact CombOk.zeroOrOne _ hcop
          · split at h
            · rename_i gn gr go
              split at h
              · exact Except.noConfusion h
              · rename_i s3 heq3
                have hg3 := plexTol_good hx.2.1 heq3
                simp only [Except.ok.injEq, Prod.mk.injEq] at h
                obtain ⟨ho, hs⟩ := h
                subst ho
                subst hs
                refine ⟨?_, hg3, fun habs => Option.noConfusion habs⟩
                intro u hu
                injection hu with hu
                subst hu
                cases hcop with
                | group _ _ _ hgo => exact CombOk.group _ _ _ hgo
            · exact Except.noConfusion h
          · split at h
            · exact Except.noConfusion h
            · rename_i s3 heq3
              have hg3 := plexTol_good hx.2.1 heq3
              split at h
              · simp only [Except.ok.injEq, Prod.mk.injEq] at h
                obtain ⟨ho, hs⟩ := h
                subst ho
                subst hs
                refine ⟨?_, hg3, fun habs => Option.noConfusion habs⟩
                intro u hu
                injection hu with hu
                subst hu
                exact CombOk.repeatTerm _ _ _ _ hcop
              · have hz := parseRepeatTail_good hcop hg3 h
                exact ⟨hz.1, hz.2.1, fun habs => absurd habs hz.2.2⟩
          · have hz := parseRepeatTail_good hcop hx.2.1 h
            exact ⟨hz.1, hz.2.1, fun habs => absurd habs hz.2.2⟩
          · simp only [Except.ok.injEq, Prod.mk.injEq] at h
            obtain ⟨ho, hs⟩ := h
            subst ho
            subst hs
            refine ⟨?_, hx.2.1, fun habs => Option.noConfusion habs⟩
            intro u hu
            injection hu with hu
            subst hu
            exact hcop
    · intro s op? s1 h hg
      simp only [parseMultipliable, bind, Except.bind, pure, Except.pure] at h
      split at h
      · split at h
        · exact Except.noConfusion h
        · rename_i v hv
          obtain ⟨g, s2⟩ := v
          have hx := ihGroup s g s2 hv hg
          dsimp only at h
          simp only [Except.ok.injEq, Prod.mk.injEq] at h
          obtain ⟨ho, hs⟩ := h
          subst ho
          subst hs
          refine ⟨?_, hx.2, fun habs => Option.noConfusion habs⟩
          intro u hu
          injection hu with hu
          subst hu
          exact hx.1
      · split at h
        · exact Except.noConfusion h
        · rename_i v hv
          obtain ⟨t0, s2⟩ := v
          have hx := parseType_good hg hv
          dsimp only at h
          simp only [Except.ok.injEq, Prod.mk.injEq] at h
          obtain ⟨ho, hs⟩ := h
          subst ho
          subst hs
          refine ⟨?_, hx.2, fun habs => Option.noConfusion habs⟩
          intro u hu
          injection hu with hu
          subst hu
          exact hx.1
      · split at h
        · exact Except.noConfusion h
        · rename_i s2 heq2
          have hg2 := plexTol_good hg heq2
          simp only [Except.ok.injEq, Prod.mk.injEq] at h
          obtain ⟨ho, hs⟩ := h
          subst ho
          subst hs
          refine ⟨?_, hg2, fun habs => Option.noConfusion habs⟩
          intro u hu
          injection hu with hu
          subst hu
          exact CombOk.keyword _
      · split at h
        · exact Except.noConfusion h
        · rename_i s2 heq2
          have hg2 := plexTol_good hg heq2
          simp only [Except.ok.injEq, Prod.mk.injEq] at h
          obtain ⟨ho, hs⟩ := h
          subst ho
          subst hs
          refine ⟨?_, hg2, fun habs => Option.noConfusion habs⟩
          intro u hu
          injection hu with hu
          subst hu
          exact CombOk.literal _
      · split at h
        · exact Except.noConfusion h
        · rename_i s2 heq2
          have hg2 := plexTol_good hg heq2
          simp only [Except.ok.injEq, Prod.mk.injEq] at h
          obtain ⟨ho, hs⟩ := h
          subst ho
          subst hs
          refine ⟨?_, hg2, fun habs => Option.noConfusion habs⟩
          intro u hu
          injection hu with hu
          subst hu
          exact CombOk.literal _
      · rename_i htok0
        simp only [Except.ok.injEq, Prod.mk.injEq] at h
        obtain ⟨ho, hs⟩ := h
        subst ho
        subst hs
        exact ⟨fun u hu => Option.noConfusion hu, hg, fun _ => htok0⟩
      · exact Except.noConfusion h
    · intro s t s1 h hg
      simp only [parseGroup, bind, Except.bind, pure, Except.pure] at h
      split at h
      · exact Except.noConfusion h
      · rename_i s2 heq2
        have hg2 := plexStrict_good hg heq2
        split at h
        · split at h
          · exact Except.noConfusion h
          · rename_i s3 heq3
            have hg3 := plexStrict_good hg2.1 heq3
            split at h
            · exact Except.noConfusion h
            · split at h
              · exact Except.noConfusion h
              · rename_i s4 heq4
                have hg4 := plexStrict_good hg3.1 heq4
                try dsimp only at h
                split at h
                · exact Except.noConfusion h
                · rename_i v hv
                  obtain ⟨op, s5⟩ := v
                  have hx := ihOneOf s4 op s5 hv hg4.1 hg4.2
                  dsimp only at h
                  split at h
                  · exact Except.noConfusion h
                  · split at h
                    · exact Except.noConfusion h
                    · rename_i s6 heq6
                      have hg6 := plexTol_good hx.2 heq6
                      simp only [Except.ok.injEq, Prod.mk.injEq] at h
                      obtain ⟨ht, hs⟩ := h
                      subst ht
                      subst hs
                      exact ⟨CombOk.group _ _ _ hx.1, hg6⟩
        · try dsimp only at h
          split at h
          · exact Except.noConfusion h
          · rename_i v hv
            obtain ⟨op, s5⟩ := v
            have hx := ihOneOf s2 op s5 hv hg2.1 hg2.2
            dsimp only at h
            split at h
            · exact Except.noConfusion h
            · split at h
              · exact Except.noConfusion h
              · rename_i s6 heq6
                have hg6 := plexTol_good hx.2 heq6
                simp only [Except.ok.injEq, Prod.mk.injEq] at h
                obtain ⟨ht, hs⟩ := h
                subst ht
                subst hs
                exact ⟨CombOk.group _ _ _ hx.1, hg6⟩

end Svg2Css

namespace Svg2Css

/-- C3, counterexample: the grammar text consisting of a single NUL byte is
accepted by `ParseGrammar` — `readRune` reads the NUL byte as rune 0 with a
nil error, which `lexNext` returns as the token 0 that normally marks end of
input, so `parseSeq` finds zero operands and builds `Seq{}` — a combinator
with zero operands and an empty capture name, violating the claimed arity
invariant. -/
theorem c3_combinator_arity_counterexample :
    ParseGrammar 10 ['\x00'] = .ok (Term.seq "" []) ∧ ¬ CombOk (Term.seq "" []) := by
  refine ⟨by rfl, fun hc => ?_⟩
  cases hc with
  | seq _ _ hlen _ =>
    rcases hlen with hl | hn
    · exact absurd hl (by decide)
    · exact hn rfl

/-- C3, amended: for every NUL-free grammar text accepted by `ParseGrammar`,
every `Seq`, `AllOf`, `AnyOf` or `OneOf` node of the returned term tree has
at least two operands or (for `Seq`) carries a non-empty capture name. -/
theorem c3_combinator_arity (fuel : Nat) (text : List Char) (t : Term)
    (hnul : '\x00' ∉ text) (h : ParseGrammar fuel text = .ok t) :
    CombOk t := by
  simp only [ParseGrammar, bind, Except.bind, pure, Except.pure] at h
  have hg0 : PGood ⟨⟨text, none, false⟩, .char '\x00', ""⟩ :=
    ⟨hnul, fun hb => Option.noConfusion hb⟩
  try dsimp only at h
  split at h
  · exact Except.noConfusion h
  · rename_i s1 heq1
    have hg1 := plexStrict_good hg0 heq1
    split at h
    · exact Except.noConfusion h
    · rename_i v hv
      obtain ⟨t2, s2⟩ := v
      have hx := (parser_inv fuel).1 _ _ _ hv hg1.1 hg1.2
      dsimp only at h
      split at h
      · exact Except.noConfusion h
      · simp only [Except.ok.injEq] at h
        subst h
        exact hx.1

/-- Witness: the amended C3 theorem applied to the NUL-free grammar text
`a b`, whose parse is a two-operand anonymous sequence. -/
theorem c3_combinator_arity_witness :
    ('\x00' ∉ "a b".toList) ∧ CombOk (Term.seq "" [Term.keyword "a", Term.keyword "b"]) :=
  ⟨by decide, c3_combinator_arity 20 "a b".toList _ (by decide) (by rfl)⟩

end Svg2Css
